import Mathlib

/-!
Verification development for the aspire-orchestrator repository.

The Rust sources are shallowly embedded as executable Lean definitions:

* `crates/ao-core/src/services/discovery.rs` — the three log-parsing regexes
  and `parse_log_content`, embedded as explicit left-to-right scanners over
  `List Char`.  The regex crate's Unicode classes `\w` and `\s` are modelled
  by their ASCII subsets (plus the Unicode white-space code points for `\s`);
  every input appearing in a theorem below is ASCII, where the two agree.
* `crates/ao-core/src/services/agent_host.rs` — the 3-byte-header framing
  (`write_frame` / `read_frame` / `send_resize`), embedded over `List Nat`
  byte streams.
* `crates/ao-tui/src/host.rs` — the host-side exit broadcast, the per-client
  forwarder, and `handle_control_message` (with a small JSON parser modelling
  the subset of serde_json used by the control channel).
* `crates/ao-core/src/services/blueprint.rs` — `validate`, `interpolate`,
  `merge_agent_config`, `resolve`.
* `crates/ao-core/src/services/slot_manager.rs` — `create_slot`,
  `stop_aspire`, `destroy_slot`, with all external effects (git, tmux,
  filesystem, child processes) supplied as environment records and recorded
  in an effect trace.
* `crates/ao-tui/src/app.rs` — `LogBuffer::push` / `color_for_slot` and the
  severity classifier.
-/

namespace AO

/-! ## Character classes (ASCII subsets of the regex crate's `\w`, `\s`) -/

/-- Model of the regex class `[A-Za-z]` (and the ASCII letters of `\w`). -/
def isAlphaC (c : Char) : Bool :=
  (65 ≤ c.toNat && c.toNat ≤ 90) || (97 ≤ c.toNat && c.toNat ≤ 122)

/-- Model of the digits `[0-9]` inside `\w`. -/
def isDigitC (c : Char) : Bool :=
  48 ≤ c.toNat && c.toNat ≤ 57

/-- Model of the regex class `\w` (word character), restricted to ASCII:
letters, digits, or underscore. -/
def isWordC (c : Char) : Bool :=
  isAlphaC c || isDigitC c || c == '_'

/-- Model of the regex class `[\w.\-]`. -/
def isWordLikeC (c : Char) : Bool :=
  isWordC c || c == '.' || c == '-'

/-- Model of the regex class `\s`: ASCII white space plus the Unicode
White_Space code points recognised by the regex crate. -/
def isSpaceC (c : Char) : Bool :=
  (9 ≤ c.toNat && c.toNat ≤ 13) || c.toNat == 32 || c.toNat == 133 ||
  c.toNat == 160 || c.toNat == 5760 || (8192 ≤ c.toNat && c.toNat ≤ 8202) ||
  c.toNat == 8232 || c.toNat == 8233 || c.toNat == 8239 || c.toNat == 8287 ||
  c.toNat == 12288

/-! ## Generic scanning combinators -/

/-- `hasPfx pat s` checks that `pat` is a prefix of `s` (literal matching). -/
def hasPfx : List Char → List Char → Bool
  | [], _ => true
  | _ :: _, [] => false
  | a :: as, b :: bs => a == b && hasPfx as bs

/-- Match a literal at the current position, returning the remainder. -/
def dropLit (lit cs : List Char) : Option (List Char) :=
  if hasPfx lit cs then some (cs.drop lit.length) else none

/-- Model of a greedy `p+`: one-or-more characters satisfying `p`,
returning (the maximal run, the remainder). -/
def takeWhile1 (p : Char → Bool) (cs : List Char) : Option (List Char × List Char) :=
  if (cs.takeWhile p).isEmpty then none else some (cs.takeWhile p, cs.dropWhile p)

/-! ## The discovery regexes (`crates/ao-core/src/services/discovery.rs`) -/

def httpsLit : List Char := "https://".toList

def httpLit : List Char := "http://".toList

/-- Model of the sub-pattern `https?://\S+` at the current position,
returning (captured URL, remainder).  The greedy `s?` is realised by trying
the `https://` literal before `http://`. -/
def matchUrl (cs : List Char) : Option (List Char × List Char) :=
  match dropLit httpsLit cs with
  | some t =>
    match takeWhile1 (fun c => !isSpaceC c) t with
    | some (u, r) => some (httpsLit ++ u, r)
    | none => none
  | none =>
    match dropLit httpLit cs with
    | some t =>
      match takeWhile1 (fun c => !isSpaceC c) t with
      | some (u, r) => some (httpLit ++ u, r)
      | none => none
    | none => none

/-- Model of `<lit>\s+(https?://\S+)` anchored at the current position,
returning the captured URL. -/
def matchLitUrlAt (lit cs : List Char) : Option (List Char) :=
  match dropLit lit cs with
  | some t =>
    match takeWhile1 isSpaceC t with
    | some (_, t2) =>
      match matchUrl t2 with
      | some (u, _) => some u
      | none => none
    | none => none
  | none => none

/-- Left-to-right scan for the first position where `f` matches
(`Regex::captures`). -/
def scanFirst (f : List Char → Option (List Char)) : List Char → Option (List Char)
  | [] => none
  | c :: t =>
    match f (c :: t) with
    | some u => some u
    | none => scanFirst f t

def nowLit : List Char := "Now listening on:".toList

def loginLit : List Char := "Login to the dashboard at".toList

def lisLit : List Char := "is listening on".toList

/-- First match of `Now listening on:\s+(https?://\S+)` (DASHBOARD_URL_RE). -/
def findNow (cs : List Char) : Option (List Char) :=
  scanFirst (matchLitUrlAt nowLit) cs

/-- First match of `Login to the dashboard at\s+(https?://\S+)` (LOGIN_URL_RE). -/
def findLogin (cs : List Char) : Option (List Char) :=
  scanFirst (matchLitUrlAt loginLit) cs

/-- Tail of RESOURCE_URL_RE after the name capture: the closing `"`, then
`\s+is listening on\s+(https?://\S+)`.  Returns (captured URL, remainder). -/
def matchResTail (rest1 : List Char) : Option (List Char × List Char) :=
  match rest1 with
  | q :: t2 =>
    if q == '"' then
      match takeWhile1 isSpaceC t2 with
      | some (_, t3) =>
        match dropLit lisLit t3 with
        | some t4 =>
          match takeWhile1 isSpaceC t4 with
          | some (_, t5) => matchUrl t5
          | none => none
        | none => none
      | none => none
    else none
  | [] => none

/-- Model of `"(\w[\w.\-]+)"\s+is listening on\s+(https?://\S+)`
(RESOURCE_URL_RE) anchored at the current position, returning
(captured name, captured URL, remainder after the whole match). -/
def matchResAt (cs : List Char) : Option (List Char × List Char × List Char) :=
  match cs with
  | c :: c0 :: t1 =>
    if c == '"' && isWordC c0 then
      match takeWhile1 isWordLikeC t1 with
      | some (run, rest1) =>
        match matchResTail rest1 with
        | some (u, rest) => some (c0 :: run, u, rest)
        | none => none
      | none => none
    else none
  | _ => none

/-- Fuel-indexed scan for all non-overlapping matches of RESOURCE_URL_RE.
The fuel only forces structural termination; `findResF_fuel_irrel` shows any
fuel of at least the input length gives the same result. -/
def findResF : Nat → List Char → List (List Char × List Char)
  | 0, _ => []
  | _ + 1, [] => []
  | f + 1, c :: t =>
    match matchResAt (c :: t) with
    | some (n, u, rest) => (n, u) :: findResF f rest
    | none => findResF f t

/-- All non-overlapping matches of RESOURCE_URL_RE, left to right
(`Regex::captures_iter`): on a match the scan resumes after the match,
otherwise it advances one character. -/
def findRes (cs : List Char) : List (List Char × List Char) :=
  findResF cs.length cs

/-- The spec's stated resource pattern
`"([A-Za-z][\w.\-]+)"\s+is listening on\s+(https?://\S+)` — written for
comparison against the source's RESOURCE_URL_RE, from which it differs by
requiring an ASCII letter as the first name character (`[A-Za-z]` instead
of `\w`). -/
def matchResSpecAt (cs : List Char) : Option (List Char × List Char × List Char) :=
  match cs with
  | c :: c0 :: t1 =>
    if c == '"' && isAlphaC c0 then
      match takeWhile1 isWordLikeC t1 with
      | some (run, rest1) =>
        match matchResTail rest1 with
        | some (u, rest) => some (c0 :: run, u, rest)
        | none => none
      | none => none
    else none
  | _ => none

/-- Fuel-indexed scan for the spec's stated resource pattern. -/
def findResSpecF : Nat → List Char → List (List Char × List Char)
  | 0, _ => []
  | _ + 1, [] => []
  | f + 1, c :: t =>
    match matchResSpecAt (c :: t) with
    | some (n, u, rest) => (n, u) :: findResSpecF f rest
    | none => findResSpecF f t

/-- All non-overlapping matches of the spec's stated resource pattern. -/
def findResSpec (cs : List Char) : List (List Char × List Char) :=
  findResSpecF cs.length cs

/-! ## The service-URL map (HashMap insert / lookup semantics) -/

/-- `HashMap::insert`: replace the value of an existing key, else add. -/
def insertSU (m : List (List Char × List Char)) (k v : List Char) :
    List (List Char × List Char) :=
  if m.any (fun p => p.1 == k) then
    m.map (fun p => if p.1 == k then (k, v) else p)
  else m ++ [(k, v)]

/-- `HashMap::get`. -/
def lookupSU (m : List (List Char × List Char)) (k : List Char) :
    Option (List Char) :=
  match m with
  | [] => none
  | (a, b) :: t => if a == k then some b else lookupSU t k

/-- `DiscoveredServices` (`crates/ao-core/src/models/discovery.rs`). -/
structure DiscoveredServices where
  dashboard_url : Option (List Char)
  service_urls : List (List Char × List Char)
deriving DecidableEq, Repr

/-- `parse_log_content` (`crates/ao-core/src/services/discovery.rs`):
first `Now listening on:` match sets the dashboard URL, a
`Login to the dashboard at` match overrides it, and every
RESOURCE_URL_RE match inserts a (name, URL) entry. -/
def parse_log_content (cs : List Char) : DiscoveredServices :=
  let d0 : Option (List Char) := findNow cs
  let d1 : Option (List Char) :=
    match findLogin cs with
    | some u => some u
    | none => d0
  { dashboard_url := d1
    service_urls := (findRes cs).foldl (fun m p => insertSU m p.1 p.2) [] }

/-! ## Framed IPC (`crates/ao-core/src/services/agent_host.rs`)

Byte streams are `List Nat` (each element one byte).  TCP delivery is
modelled by the concatenated byte sequence: however the writer's bytes are
split across TCP segments, the reader sees this sequence in order. -/

def CHANNEL_PTY_OUTPUT : Nat := 1

def CHANNEL_PTY_INPUT : Nat := 2

def CHANNEL_CONTROL : Nat := 3

/-- `AgentConnection::write_frame`: channel byte, `u16` little-endian length
(payload truncated to 65535 bytes), then the (truncated) payload. -/
def write_frame (channel : Nat) (payload : List Nat) : List Nat :=
  channel :: (min payload.length 65535 % 256) :: (min payload.length 65535 / 256) ::
    payload.take (min payload.length 65535)

/-- `AgentConnection::read_frame` on a byte stream: one channel byte, a
little-endian `u16` length, then exactly that many payload bytes.  Returns
the frame and the unconsumed remainder, or `none` when the stream ends
before the frame is complete. -/
def read_frame (s : List Nat) : Option ((Nat × List Nat) × List Nat) :=
  match s with
  | ch :: lo :: hi :: rest =>
    if lo + 256 * hi ≤ rest.length then
      some ((ch, rest.take (lo + 256 * hi)), rest.drop (lo + 256 * hi))
    else none
  | _ => none

/-- Fuel-indexed repeated `read_frame`. -/
def readFramesF : Nat → List Nat → List (Nat × List Nat)
  | 0, _ => []
  | f + 1, s =>
    match read_frame s with
    | some (p, rest) => p :: readFramesF f rest
    | none => []

/-- All frames obtained by repeated `read_frame` calls on a byte stream. -/
def read_frames (s : List Nat) : List (Nat × List Nat) :=
  readFramesF s.length s

/-! ## UTF-8 / JSON payload helpers

The control payloads in this repository are pure ASCII, where UTF-8
encoding is the identity on code points. -/

def utf8 (s : List Char) : List Nat := s.map Char.toNat

/-- The `format!("\x7b\"exited\":{exit_code}\x7d")` payload of
`crates/ao-tui/src/host.rs`. -/
def exitJson (code : Nat) : List Char :=
  "\x7b\"exited\":".toList ++ (toString code).toList ++ "\x7d".toList

/-- The exit control frame built by `run_host` after the child exits: a
CONTROL channel byte, little-endian length, and the JSON payload, pushed as
a single pre-framed byte blob into the broadcast channel. -/
def exit_frame_bytes (code : Nat) : List Nat :=
  let js := utf8 (exitJson code)
  let len := min js.length 65535
  CHANNEL_CONTROL :: (len % 256) :: (len / 256) :: js

/-- The per-client forwarder of `handle_client` (`crates/ao-tui/src/host.rs`):
every blob received from the broadcast channel is wrapped in a PTY_OUTPUT
frame before being written to the client socket. -/
def client_forward (data : List Nat) : List Nat :=
  let len := min data.length 65535
  CHANNEL_PTY_OUTPUT :: (len % 256) :: (len / 256) :: data.take len

/-- The `format!("\x7b\"resize\":[{cols},{rows}]\x7d")` payload of
`AgentConnection::send_resize`. -/
def resizeJson (cols rows : Nat) : List Char :=
  "\x7b\"resize\":[".toList ++ (toString cols).toList ++ ",".toList ++
    (toString rows).toList ++ "]\x7d".toList

/-- `AgentConnection::send_resize`: one CONTROL frame with the resize JSON. -/
def send_resize_frame (cols rows : Nat) : List Nat :=
  write_frame CHANNEL_CONTROL (utf8 (resizeJson cols rows))

/-! ## Minimal JSON values (model of the serde_json subset used by the
control channel of `crates/ao-tui/src/host.rs`) -/

inductive JVal where
  | jnull : JVal
  | jbool : Bool → JVal
  | jnum : Nat → JVal
  | jstr : List Char → JVal
  | jarr : List JVal → JVal
  | jobj : List (List Char × JVal) → JVal
deriving Repr

def jsonWs (c : Char) : Bool :=
  c == ' ' || c == '\t' || c == '\n' || c == '\r'

def digitVal (c : Char) : Nat := c.toNat - 48

mutual

/-- Fuel-indexed recursive-descent JSON parser for the subset appearing in
control payloads: objects, arrays, unsigned integers, escape-free strings,
`true`, `false`, `null`. -/
def parseJV : Nat → List Char → Option (JVal × List Char)
  | 0, _ => none
  | f + 1, cs0 =>
    let cs := cs0.dropWhile jsonWs
    match cs with
    | [] => none
    | c :: t =>
      if c == '"' then
        let body := t.takeWhile (fun d => !(d == '"' || d == '\\'))
        match t.drop body.length with
        | q :: r => if q == '"' then some (JVal.jstr body, r) else none
        | [] => none
      else if c == '[' then
        match (t.dropWhile jsonWs) with
        | ']' :: r => some (JVal.jarr [], r)
        | _ => match parseArrItems f t with
          | some (xs, r) => some (JVal.jarr xs, r)
          | none => none
      else if c == '\x7b' then
        match (t.dropWhile jsonWs) with
        | '\x7d' :: r => some (JVal.jobj [], r)
        | _ => match parseObjItems f t with
          | some (fs, r) => some (JVal.jobj fs, r)
          | none => none
      else if isDigitC c then
        let digits := cs.takeWhile isDigitC
        some (JVal.jnum (digits.foldl (fun a d => a * 10 + digitVal d) 0),
          cs.drop digits.length)
      else if hasPfx "true".toList cs then some (JVal.jbool true, cs.drop 4)
      else if hasPfx "false".toList cs then some (JVal.jbool false, cs.drop 5)
      else if hasPfx "null".toList cs then some (JVal.jnull, cs.drop 4)
      else none

/-- Comma-separated array items up to `]`. -/
def parseArrItems : Nat → List Char → Option (List JVal × List Char)
  | 0, _ => none
  | f + 1, cs =>
    match parseJV f cs with
    | some (v, r) =>
      match r.dropWhile jsonWs with
      | ',' :: r2 =>
        match parseArrItems f r2 with
        | some (xs, r3) => some (v :: xs, r3)
        | none => none
      | ']' :: r2 => some ([v], r2)
      | _ => none
    | none => none

/-- Comma-separated `"key": value` pairs up to `\x7d`. -/
def parseObjItems : Nat → List Char → Option (List (List Char × JVal) × List Char)
  | 0, _ => none
  | f + 1, cs =>
    match (cs.dropWhile jsonWs) with
    | c :: t =>
      if c == '"' then
        let key := t.takeWhile (fun d => !(d == '"' || d == '\\'))
        match t.drop key.length with
        | q :: r =>
          if q == '"' then
            match r.dropWhile jsonWs with
            | ':' :: r2 =>
              match parseJV f r2 with
              | some (v, r3) =>
                match r3.dropWhile jsonWs with
                | ',' :: r4 =>
                  match parseObjItems f r4 with
                  | some (fs, r5) => some ((key, v) :: fs, r5)
                  | none => none
                | '\x7d' :: r4 => some ([(key, v)], r4)
                | _ => none
              | none => none
            | _ => none
          else none
        | [] => none
      else none
    | [] => none

end

/-- Model of `serde_json::from_str` on the control-payload subset: parse one
value and require only trailing white space. -/
def parseJson (cs : List Char) : Option JVal :=
  match parseJV (cs.length + 1) cs with
  | some (v, rest) => if (rest.dropWhile jsonWs).isEmpty then some v else none
  | none => none

/-- `serde_json::Value::get` on an object. -/
def objGet (v : JVal) (key : List Char) : Option JVal :=
  match v with
  | JVal.jobj fs =>
    match fs.find? (fun p => p.1 == key) with
    | some p => some p.2
    | none => none
  | _ => none

/-- `serde_json::Value::as_array`. -/
def asArr : JVal → Option (List JVal)
  | JVal.jarr xs => some xs
  | _ => none

/-- `serde_json::Value::as_u64`. -/
def asU64 : JVal → Option Nat
  | JVal.jnum n => some n
  | _ => none

/-- `serde_json::Value::as_str`. -/
def asStr : JVal → Option (List Char)
  | JVal.jstr s => some s
  | _ => none

/-- The effect of one control message on the host. -/
inductive CtrlAction where
  | resize : Nat → Nat → CtrlAction
  | kill : CtrlAction
  | noAction : CtrlAction
deriving DecidableEq, Repr

/-- `handle_control_message` (`crates/ao-tui/src/host.rs`): a parsed JSON
value with a two-element `resize` array resizes the PTY (the `as u16` casts
are the `% 65536` truncations, with serde's `unwrap_or` defaults 120 / 40);
the string `"kill"` exits the host; anything else does nothing. -/
def handle_control_message (text : List Char) : CtrlAction :=
  match parseJson text with
  | some v =>
    match objGet v "resize".toList with
    | some rv =>
      match asArr rv with
      | some a =>
        if a.length == 2 then
          let cols := ((a.get? 0 >>= asU64).getD 120) % 65536
          let rows := ((a.get? 1 >>= asU64).getD 40) % 65536
          CtrlAction.resize cols rows
        else CtrlAction.noAction
      | none => CtrlAction.noAction
    | none =>
      match asStr v with
      | some s => if s == "kill".toList then CtrlAction.kill else CtrlAction.noAction
      | none => CtrlAction.noAction
  | none => CtrlAction.noAction

/-! ## Blueprint engine (`crates/ao-core/src/services/blueprint.rs`,
models in `crates/ao-core/src/models/blueprint.rs`) -/

structure BlueprintAgentConfig where
  prompt_template : Option String
  allowed_tools : Option String
  max_turns : Option Nat
deriving DecidableEq, Repr

structure BlueprintDefaults where
  source : Option String
  auto_start_aspire : Option Bool
  auto_spawn_agent : Option Bool
  agent : Option BlueprintAgentConfig
deriving DecidableEq, Repr

structure BlueprintSlotEntry where
  name : String
  branch : Option String
  source : Option String
  auto_start_aspire : Option Bool
  auto_spawn_agent : Option Bool
  agent : Option BlueprintAgentConfig
deriving DecidableEq, Repr

structure Blueprint where
  name : String
  description : Option String
  defaults : Option BlueprintDefaults
  slots : List BlueprintSlotEntry
deriving DecidableEq, Repr

structure ResolvedBlueprintSlot where
  name : String
  source : String
  branch : Option String
  auto_start_aspire : Bool
  auto_spawn_agent : Bool
  prompt : Option String
  allowed_tools : Option String
  max_turns : Option Nat
deriving DecidableEq, Repr

/-- Error taxonomy of `crates/ao-core/src/error.rs`. -/
inductive OrchestratorError where
  | slotAlreadyExists : String → OrchestratorError
  | slotNotFound : String → OrchestratorError
  | configNotFound : String → OrchestratorError
  | invalidConfig : String → OrchestratorError
  | git : String → OrchestratorError
  | tmux : String → OrchestratorError
  | aspire : String → OrchestratorError
  | agent : String → OrchestratorError
  | portAllocation : String → OrchestratorError
  | blueprintNotFound : String → OrchestratorError
  | blueprintAlreadyExists : String → OrchestratorError
  | blueprintValidation : String → OrchestratorError
  | state : String → OrchestratorError
  | process : String → OrchestratorError
  | ioErr : String → OrchestratorError
  | jsonErr : String → OrchestratorError
  | yamlErr : String → OrchestratorError
deriving DecidableEq, Repr

/-- The per-slot error strings of `validate`'s `enumerate` loop, starting at
index `i`: an empty-name error and a no-source-anywhere error per entry, in
push order. -/
def slotErrsFrom (has_default_source : Bool) : Nat → List BlueprintSlotEntry → List String
  | _, [] => []
  | i, s :: t =>
    (if s.name.isEmpty then ["Slot " ++ toString i ++ " has empty name"] else []) ++
    (if s.source.isNone && !has_default_source then
      ["Slot '" ++ s.name ++ "' has no source and no default source"] else []) ++
    slotErrsFrom has_default_source (i + 1) t

/-- The error strings accumulated by `validate`: empty blueprint name, empty
slot list, then the per-slot errors. -/
def validateErrors (bp : Blueprint) : List String :=
  (if bp.name.isEmpty then ["Blueprint name is required"] else []) ++
  (if bp.slots.isEmpty then ["Blueprint must have at least one slot"] else []) ++
  slotErrsFrom ((bp.defaults.bind fun d => d.source)).isSome 0 bp.slots

/-- `validate`: `Ok(())` iff no error strings were collected. -/
def validate (bp : Blueprint) : Except (List String) Unit :=
  if (validateErrors bp).isEmpty then Except.ok () else Except.error (validateErrors bp)

/-- Fuel-indexed model of Rust's `str::replace`: replace every
non-overlapping occurrence of `pat`, left to right.  The fuel (initially the
input length) only forces structural termination; it cannot run out because
every step consumes at least one character. -/
def replaceAllF : Nat → List Char → List Char → List Char → List Char
  | 0, s, _, _ => s
  | f + 1, s, pat, sub =>
    match s with
    | [] => []
    | c :: t =>
      if hasPfx pat s && !pat.isEmpty then
        sub ++ replaceAllF f (s.drop pat.length) pat sub
      else c :: replaceAllF f t pat sub

def replaceAll (s pat sub : List Char) : List Char :=
  replaceAllF s.length s pat sub

/-- `interpolate`: substitute `{slot_name}` and `{branch}`. -/
def interpolate (template slot_name branch : String) : String :=
  String.mk (replaceAll
    (replaceAll template.toList "\x7bslot_name\x7d".toList slot_name.toList)
    "\x7bbranch\x7d".toList branch.toList)

/-- `merge_agent_config`: slot-level fields override default-level fields. -/
def merge_agent_config (dflt slot : Option BlueprintAgentConfig) :
    Option BlueprintAgentConfig :=
  match dflt, slot with
  | none, none => none
  | some d, none => some d
  | none, some s => some s
  | some d, some s =>
    some { prompt_template := s.prompt_template.or d.prompt_template
           allowed_tools := s.allowed_tools.or d.allowed_tools
           max_turns := s.max_turns.or d.max_turns }

/-- The per-entry body of `resolve`'s loop (merge defaults into one slot
entry, failing when no source is available after the merge). -/
def resolveEntry (dflt : Option BlueprintDefaults) (slot : BlueprintSlotEntry) :
    Except OrchestratorError ResolvedBlueprintSlot :=
  let default_source := dflt.bind fun d => d.source
  let default_auto_start := (dflt.bind fun d => d.auto_start_aspire).getD false
  let default_auto_spawn := (dflt.bind fun d => d.auto_spawn_agent).getD false
  let default_agent := dflt.bind fun d => d.agent
  match slot.source.or default_source with
  | none => Except.error (OrchestratorError.blueprintValidation
      ("Slot '" ++ slot.name ++ "' has no source"))
  | some src =>
    let branch := slot.branch
    let branch_str := branch.getD "main"
    let auto_start_aspire := slot.auto_start_aspire.getD default_auto_start
    let auto_spawn_agent := slot.auto_spawn_agent.getD default_auto_spawn
    let agent_config := merge_agent_config default_agent slot.agent
    let prompt := (agent_config.bind fun a => a.prompt_template).map
      fun t => interpolate t slot.name branch_str
    Except.ok
      { name := slot.name
        source := src
        branch := branch
        auto_start_aspire := auto_start_aspire
        auto_spawn_agent := auto_spawn_agent
        prompt := prompt
        allowed_tools := agent_config.bind fun a => a.allowed_tools
        max_turns := agent_config.bind fun a => a.max_turns }

/-- The `for slot in &blueprint.slots` loop of `resolve`: left to right,
stopping at the first error. -/
def resolveSlots (dflt : Option BlueprintDefaults) :
    List BlueprintSlotEntry → Except OrchestratorError (List ResolvedBlueprintSlot)
  | [] => Except.ok []
  | s :: t =>
    match resolveEntry dflt s with
    | Except.error e => Except.error e
    | Except.ok r =>
      match resolveSlots dflt t with
      | Except.error e => Except.error e
      | Except.ok rs => Except.ok (r :: rs)

/-- `resolve`: validate, then merge defaults into every slot entry. -/
def resolve (bp : Blueprint) :
    Except OrchestratorError (List ResolvedBlueprintSlot) :=
  match validate bp with
  | Except.error errors =>
    Except.error (OrchestratorError.blueprintValidation (String.intercalate "; " errors))
  | Except.ok _ => resolveSlots bp.defaults bp.slots

/-! ## Slot registry (`crates/ao-core/src/models/slot.rs`) -/

inductive SlotStatus where
  | provisioning | ready | starting | running | stopping | statusError
deriving DecidableEq, Repr

inductive AgentStatus where
  | agentNone | agentStarting | active | blocked | stopped
deriving DecidableEq, Repr

structure PortAllocation where
  name : String
  port : Nat
deriving DecidableEq, Repr

/-- A slot record.  Timestamps are abstract `Nat` instants. -/
structure Slot where
  name : String
  repo_path : String
  branch : String
  clone_path : String
  status : SlotStatus
  agent_status : AgentStatus
  port_allocations : List PortAllocation
  services : DiscoveredServices
  created_at : Nat
  aspire_started_at : Option Nat
  agent_started_at : Option Nat
  last_agent_output_at : Option Nat
deriving DecidableEq, Repr

/-- `Slot::new`, with the creation instant passed in for `Utc::now()`. -/
def Slot.new (name repo_path branch clone_path : String) (now : Nat) : Slot :=
  { name := name, repo_path := repo_path, branch := branch, clone_path := clone_path
    status := SlotStatus.provisioning, agent_status := AgentStatus.agentNone
    port_allocations := [], services := { dashboard_url := none, service_urls := [] }
    created_at := now, aspire_started_at := none, agent_started_at := none
    last_agent_output_at := none }

/-- `SlotManager::update_slot`: mutate the first slot with the given name
(no-op when absent); the subsequent persist is modelled separately. -/
def update_slot : List Slot → String → (Slot → Slot) → List Slot
  | [], _, _ => []
  | s :: t, name, f =>
    if s.name == name then f s :: t else s :: update_slot t name f

/-! ## `SlotManager::stop_aspire` (`crates/ao-core/src/services/slot_manager.rs`)

External interactions (persisting state, killing the child) are supplied as
an environment of outcomes. -/

/-- Outcomes of the external calls made by `stop_aspire`, in program order:
the persist after setting `Stopping`, the `child.kill()`, and the persist
after the reset to `Ready`. -/
structure StopEnv where
  persist1 : Except String Unit
  kill_result : Except String Unit
  persist2 : Except String Unit
deriving Repr

/-- `stop_aspire`: set status to `Stopping` (and persist); if a child
process handle is registered, remove it and kill the child — a kill failure
propagates immediately; otherwise clear `aspire_started_at` and the
discovered services, set status to `Ready`, and persist.  Returns the
result together with the final registry and the final child-handle map. -/
def stop_aspire (env : StopEnv) (slots : List Slot) (procs : List String)
    (name : String) :
    Except OrchestratorError Unit × List Slot × List String :=
  let slots1 := update_slot slots name fun s => { s with status := SlotStatus.stopping }
  match env.persist1 with
  | Except.error m => (Except.error (OrchestratorError.state m), slots1, procs)
  | Except.ok _ =>
    let hasProc := procs.contains name
    let procs1 := procs.erase name
    if hasProc then
      match env.kill_result with
      | Except.error m =>
        (Except.error (OrchestratorError.aspire ("failed to kill aspire process: " ++ m)),
          slots1, procs1)
      | Except.ok _ =>
        let slots2 := update_slot slots1 name fun s =>
          { s with status := SlotStatus.ready, aspire_started_at := none
                   services := { dashboard_url := none, service_urls := [] } }
        match env.persist2 with
        | Except.error m => (Except.error (OrchestratorError.state m), slots2, procs1)
        | Except.ok _ => (Except.ok (), slots2, procs1)
    else
      let slots2 := update_slot slots1 name fun s =>
        { s with status := SlotStatus.ready, aspire_started_at := none
                 services := { dashboard_url := none, service_urls := [] } }
      match env.persist2 with
      | Except.error m => (Except.error (OrchestratorError.state m), slots2, procs1)
      | Except.ok _ => (Except.ok (), slots2, procs1)

/-! ## `SlotManager::create_slot` -/

/-- Manifest (`crates/ao-core/src/models/config.rs` /
`.aspire-orchestrator.yaml`). -/
structure OrchestratorConfig where
  apphost : String
  setup : List String
  port_overrides : List (String × Nat)
deriving DecidableEq, Repr

/-- Externally observable side effects of `create_slot`, in program order. -/
inductive CreateEff where
  | gitClone : String → String → CreateEff
  | gitBranchExists : String → CreateEff
  | gitCheckout : String → Bool → CreateEff
  | gitCurrentBranch : CreateEff
  | allocPorts : CreateEff
  | tmuxCreateSession : String → CreateEff
  | tmuxRenameWindow : CreateEff
  | tmuxCreateWindow : CreateEff
  | tmuxSendKeys : String → CreateEff
  | persist : CreateEff
  | spawnAgent : CreateEff
deriving DecidableEq, Repr

/-- Outcomes of the external calls made by `create_slot`. -/
structure CreateEnv where
  abs_source : String
  clone_result : Except String Unit
  branch_exists : Except String Bool
  checkout_result : Except String Unit
  current_branch : Except String String
  config_result : Except OrchestratorError OrchestratorConfig
  alloc_result : Except String (List PortAllocation)
  tmux_create_session : Except String Unit
  tmux_rename_window : Except String Unit
  tmux_create_window : Except String Unit
  send_keys_results : List (Except String Unit)
  persist_result : Except String Unit
  spawn_agent_result : Except OrchestratorError Unit
  now : Nat
deriving Repr

/-- The setup-command loop of `create_slot`: `tmux::send_keys` per command,
stopping at the first error (outcomes consumed in order). -/
def runSetup : List String → List (Except String Unit) →
    Except OrchestratorError Unit × List CreateEff
  | [], _ => (Except.ok (), [])
  | cmd :: cmds, results =>
    match results with
    | [] => (Except.ok (), [CreateEff.tmuxSendKeys cmd])
    | r :: rs =>
      match r with
      | Except.error m => (Except.error (OrchestratorError.tmux m), [CreateEff.tmuxSendKeys cmd])
      | Except.ok _ =>
        let (res, effs) := runSetup cmds rs
        (res, CreateEff.tmuxSendKeys cmd :: effs)

/-- `create_slot`: reject duplicate names, derive the source label, clone,
check out the branch, load the manifest and allocate ports (a missing
manifest is recovered), create the tmux session and windows, run the setup
commands, insert the new slot with status `Ready`, persist, and optionally
spawn an agent.  Returns the result, the final registry, and the effect
trace. -/
def create_slot (env : CreateEnv) (slots : List Slot) (slots_directory : String)
    (name source : String) (branch : Option String) (prompt : Option String) :
    Except OrchestratorError Slot × List Slot × List CreateEff :=
  if slots.any (fun s => s.name == name) then
    (Except.error (OrchestratorError.slotAlreadyExists name), slots, [])
  else
    let clone_path := slots_directory ++ "/" ++ name
    let is_remote := source.startsWith "https://" || source.startsWith "http://" ||
      source.startsWith "git@" || source.startsWith "ssh://"
    let source_label := if is_remote then source else env.abs_source
    let slot0 := Slot.new name source_label (branch.getD "unknown") clone_path env.now
    match env.clone_result with
    | Except.error m =>
      (Except.error (OrchestratorError.git m), slots,
        [CreateEff.gitClone source_label clone_path])
    | Except.ok _ =>
      let effs0 := [CreateEff.gitClone source_label clone_path]
      let branchStep :
          Except OrchestratorError Slot × List CreateEff :=
        match branch with
        | some b =>
          match env.branch_exists with
          | Except.error m =>
            (Except.error (OrchestratorError.git m), [CreateEff.gitBranchExists b])
          | Except.ok ex =>
            match env.checkout_result with
            | Except.error m =>
              (Except.error (OrchestratorError.git m),
                [CreateEff.gitBranchExists b, CreateEff.gitCheckout b (!ex)])
            | Except.ok _ =>
              (Except.ok slot0, [CreateEff.gitBranchExists b, CreateEff.gitCheckout b (!ex)])
        | none =>
          match env.current_branch with
          | Except.error m =>
            (Except.error (OrchestratorError.git m), [CreateEff.gitCurrentBranch])
          | Except.ok cur =>
            (Except.ok { slot0 with branch := cur }, [CreateEff.gitCurrentBranch])
      match branchStep with
      | (Except.error e, effs1) => (Except.error e, slots, effs0 ++ effs1)
      | (Except.ok slot1, effs1) =>
        let effs01 := effs0 ++ effs1
        let portStep :
            Except OrchestratorError Slot × List CreateEff :=
          match env.config_result with
          | Except.ok _ =>
            match env.alloc_result with
            | Except.error m =>
              (Except.error (OrchestratorError.portAllocation m), [CreateEff.allocPorts])
            | Except.ok allocs =>
              (Except.ok { slot1 with port_allocations := allocs }, [CreateEff.allocPorts])
          | Except.error (OrchestratorError.configNotFound _) => (Except.ok slot1, [])
          | Except.error e => (Except.error e, [])
        match portStep with
        | (Except.error e, effs2) => (Except.error e, slots, effs01 ++ effs2)
        | (Except.ok slot2, effs2) =>
          let effs02 := effs01 ++ effs2
          let sess := "ao-" ++ name
          match env.tmux_create_session with
          | Except.error m =>
            (Except.error (OrchestratorError.tmux m), slots,
              effs02 ++ [CreateEff.tmuxCreateSession sess])
          | Except.ok _ =>
            match env.tmux_rename_window with
            | Except.error m =>
              (Except.error (OrchestratorError.tmux m), slots,
                effs02 ++ [CreateEff.tmuxCreateSession sess, CreateEff.tmuxRenameWindow])
            | Except.ok _ =>
              match env.tmux_create_window with
              | Except.error m =>
                (Except.error (OrchestratorError.tmux m), slots,
                  effs02 ++ [CreateEff.tmuxCreateSession sess, CreateEff.tmuxRenameWindow,
                    CreateEff.tmuxCreateWindow])
              | Except.ok _ =>
                let effs03 := effs02 ++ [CreateEff.tmuxCreateSession sess,
                  CreateEff.tmuxRenameWindow, CreateEff.tmuxCreateWindow]
                let setupStep :
                    Except OrchestratorError Unit × List CreateEff :=
                  match env.config_result with
                  | Except.ok config => runSetup config.setup env.send_keys_results
                  | Except.error _ => (Except.ok (), [])
                match setupStep with
                | (Except.error e, effs4) => (Except.error e, slots, effs03 ++ effs4)
                | (Except.ok _, effs4) =>
                  let effs04 := effs03 ++ effs4
                  let slot3 := { slot2 with status := SlotStatus.ready }
                  let slots1 := slots ++ [slot3]
                  match env.persist_result with
                  | Except.error m =>
                    (Except.error (OrchestratorError.state m), slots1,
                      effs04 ++ [CreateEff.persist])
                  | Except.ok _ =>
                    match prompt with
                    | some p =>
                      if p.isEmpty then (Except.ok slot3, slots1, effs04 ++ [CreateEff.persist])
                      else
                        match env.spawn_agent_result with
                        | Except.error e =>
                          (Except.error e, slots1,
                            effs04 ++ [CreateEff.persist, CreateEff.spawnAgent])
                        | Except.ok _ =>
                          (Except.ok slot3, slots1,
                            effs04 ++ [CreateEff.persist, CreateEff.spawnAgent])
                    | none => (Except.ok slot3, slots1, effs04 ++ [CreateEff.persist])

/-! ## `SlotManager::destroy_slot` -/

/-- Externally observable side effects of `destroy_slot`, in program order. -/
inductive DestroyEff where
  | killChild : DestroyEff
  | abortLogTask : DestroyEff
  | abortTailer : DestroyEff
  | tmuxKillSession : String → DestroyEff
  | removeCloneDir : String → DestroyEff
  | releasePort : Nat → DestroyEff
  | persistState : DestroyEff
deriving DecidableEq, Repr

/-- Outcomes of the external calls made by `destroy_slot` whose results are
observed (`persist`); all other teardown failures are swallowed. -/
structure DestroyEnv where
  clone_dir_exists : Bool
  persist_result : Except String Unit
deriving Repr

/-- `destroy_slot`: kill the Aspire child if one is registered, abort the
agent-log tailer if present, kill the slot's tmux session, remove its clone
directory, release its ports — each only when applicable, each best-effort —
then drop the slot from the registry and persist. -/
def destroy_slot (env : DestroyEnv) (slots : List Slot) (procs tailers : List String)
    (name : String) :
    Except OrchestratorError Unit × (List Slot × List String × List String) ×
      List DestroyEff :=
  let (procs1, effs1) :=
    if procs.contains name then (procs.erase name, [DestroyEff.killChild, DestroyEff.abortLogTask])
    else (procs, [])
  let (tailers1, effs2) :=
    if tailers.contains name then (tailers.erase name, [DestroyEff.abortTailer])
    else (tailers, [])
  let slotOpt := slots.find? (fun s => s.name == name)
  let effs3 :=
    match slotOpt with
    | some s => [DestroyEff.tmuxKillSession ("ao-" ++ s.name)]
    | none => []
  let effs4 :=
    match slotOpt with
    | some s => if env.clone_dir_exists then [DestroyEff.removeCloneDir s.clone_path] else []
    | none => []
  let effs5 :=
    match slotOpt with
    | some s => s.port_allocations.map fun a => DestroyEff.releasePort a.port
    | none => []
  let slots1 := slots.filter (fun s => !(s.name == name))
  let effs := effs1 ++ effs2 ++ effs3 ++ effs4 ++ effs5 ++ [DestroyEff.persistState]
  match env.persist_result with
  | Except.error m => (Except.error (OrchestratorError.state m), (slots1, procs1, tailers1), effs)
  | Except.ok _ => (Except.ok (), (slots1, procs1, tailers1), effs)

/-! ## Multiplexed log buffer (`crates/ao-tui/src/app.rs`) -/

inductive CoreLogSource where
  | aspireSrc | agentSrc
deriving DecidableEq, Repr

inductive Severity where
  | sevError | sevWarn | sevInfo | sevDebug
deriving DecidableEq, Repr

/-- `contains` substring test on character lists. -/
def containsSub : List Char → List Char → Bool
  | [], needle => needle.isEmpty
  | hay@(_ :: t), needle => hasPfx needle hay || containsSub t needle

/-- `classify_severity`: case-insensitive substring heuristics.
`char::to_lowercase` is modelled by `Char.toLower` (they agree on ASCII,
and every pattern searched for is ASCII). -/
def classify_severity (text : String) : Severity :=
  let lower := text.toList.map Char.toLower
  if containsSub lower "error".toList || containsSub lower "exception".toList ||
      containsSub lower "fatal".toList then Severity.sevError
  else if containsSub lower "warn".toList then Severity.sevWarn
  else if containsSub lower "debug".toList || containsSub lower "trace".toList then
    Severity.sevDebug
  else Severity.sevInfo

structure LogEntry where
  slot_name : String
  source : CoreLogSource
  text : String
  severity : Severity
  color_index : Nat
deriving DecidableEq, Repr

/-- First-match association lookup (`HashMap::get` over the color map). -/
def lookupColor : List (String × Nat) → String → Option Nat
  | [], _ => none
  | (a, b) :: t, k => if a == k then some b else lookupColor t k

/-- `LogBuffer`: ring buffer of entries, the slot-to-color map, and the
`u8` color counter (arithmetic mod 256 mirrors the `u8` wrap). -/
structure LogBuffer where
  entries : List LogEntry
  slot_colors : List (String × Nat)
  next_color : Nat
deriving Repr

def LogBuffer.CAPACITY : Nat := 10000

def LogBuffer.empty : LogBuffer :=
  { entries := [], slot_colors := [], next_color := 0 }

/-- `LogBuffer::color_for_slot`: return the memoised index, or assign
`next_color % 8`, bump the counter, and record the assignment. -/
def LogBuffer.color_for_slot (b : LogBuffer) (name : String) : Nat × LogBuffer :=
  match lookupColor b.slot_colors name with
  | some idx => (idx, b)
  | none =>
    let idx := b.next_color % 8
    (idx, { b with next_color := (b.next_color + 1) % 256
                   slot_colors := (name, idx) :: b.slot_colors })

/-- `LogBuffer::push`: assign the color and severity, evict the oldest entry
at capacity, and append. -/
def LogBuffer.push (b : LogBuffer) (slot_name : String) (source : CoreLogSource)
    (text : String) : LogBuffer :=
  let (color_index, b1) := b.color_for_slot slot_name
  let severity := classify_severity text
  let entries1 :=
    if LogBuffer.CAPACITY ≤ b1.entries.length then b1.entries.drop 1 else b1.entries
  { b1 with entries := entries1 ++
      [{ slot_name := slot_name, source := source, text := text
         severity := severity, color_index := color_index }] }

/-- A whole sequence of `push` calls starting from the freshly created
buffer. -/
def LogBuffer.pushAll (ops : List (String × CoreLogSource × String)) : LogBuffer :=
  ops.foldl (fun b o => b.push o.1 o.2.1 o.2.2) LogBuffer.empty

/-! ## Concrete inputs used in witnesses and counterexamples -/

/-- A sample slot as produced by `create_slot` (scenario 1 of the spec). -/
def slotFeatX : Slot := Slot.new "feat-x" "/r" "main" "/slots/feat-x" 0

/-- A `create_slot` environment in which every external call succeeds. -/
def envAllOk : CreateEnv :=
  { abs_source := "/r", clone_result := Except.ok (), branch_exists := Except.ok true
    checkout_result := Except.ok (), current_branch := Except.ok "main"
    config_result := Except.error (OrchestratorError.configNotFound "missing")
    alloc_result := Except.ok [], tmux_create_session := Except.ok ()
    tmux_rename_window := Except.ok (), tmux_create_window := Except.ok ()
    send_keys_results := [], persist_result := Except.ok ()
    spawn_agent_result := Except.ok (), now := 0 }

/-- A `stop_aspire` environment whose `child.kill()` fails. -/
def envKillFail : StopEnv :=
  { persist1 := Except.ok (), kill_result := Except.error "boom"
    persist2 := Except.ok () }

/-- A slot with a running service stack. -/
def slotRunning : Slot :=
  { Slot.new "s" "/r" "main" "/c" 0 with
      status := SlotStatus.running, aspire_started_at := some 5 }

/-- A `destroy_slot` environment whose persist succeeds. -/
def envDestroyOk : DestroyEnv :=
  { clone_dir_exists := true, persist_result := Except.ok () }

/-- A short push sequence for the log buffer. -/
def opsLog : List (String × CoreLogSource × String) :=
  [("a", CoreLogSource.aspireSrc, "error A"), ("b", CoreLogSource.agentSrc, "warn B"),
   ("a", CoreLogSource.agentSrc, "more output")]

/-- Claims C1: an accumulated log whose final dashboard URL touches the end
of the input and which announces a service URL. -/
def logS1 : List Char :=
  "\"api\" is listening on http://c\nNow listening on: http://a".toList

/-- Claims C1: an extension that re-announces the service under a new URL
and extends the dashboard URL across the split point. -/
def logExt1 : List Char := "b\n\"api\" is listening on http://d\n".toList

/-- Claim C8: a resource announcement whose name starts with a digit. -/
def logDigitName : List Char := "\"1api\" is listening on http://x".toList

/-! ## Helper lemmas and sanity checks -/

theorem length_dropWhile_le (p : Char → Bool) (l : List Char) :
    (l.dropWhile p).length ≤ l.length := by
  induction l with
  | nil => simp [List.dropWhile]
  | cons x xs ih =>
    simp only [List.dropWhile]
    split
    · exact Nat.le_trans ih (Nat.le_succ _)
    · simp

theorem takeWhile1_rest_length {p : Char → Bool} {cs a r : List Char}
    (h : takeWhile1 p cs = some (a, r)) : r.length ≤ cs.length := by
  unfold takeWhile1 at h
  split at h
  · exact absurd h (by simp)
  · simp only [Option.some.injEq, Prod.mk.injEq] at h
    obtain ⟨-, h2⟩ := h
    subst h2
    exact length_dropWhile_le p cs

theorem dropLit_rest_length {lit cs r : List Char}
    (h : dropLit lit cs = some r) : r.length ≤ cs.length := by
  unfold dropLit at h
  split at h
  · simp only [Option.some.injEq] at h
    subst h
    simp
  · exact absurd h (by simp)

theorem matchUrl_rest_length {cs u r : List Char}
    (h : matchUrl cs = some (u, r)) : r.length ≤ cs.length := by
  unfold matchUrl at h
  cases h1 : dropLit httpsLit cs with
  | some t =>
    simp only [h1] at h
    cases h2 : takeWhile1 (fun c => !isSpaceC c) t with
    | some p =>
      obtain ⟨a, b⟩ := p
      simp only [h2, Option.some.injEq, Prod.mk.injEq] at h
      obtain ⟨-, h4⟩ := h
      subst h4
      exact Nat.le_trans (takeWhile1_rest_length h2) (dropLit_rest_length h1)
    | none => simp only [h2] at h; exact absurd h (by simp)
  | none =>
    simp only [h1] at h
    cases h2 : dropLit httpLit cs with
    | some t =>
      simp only [h2] at h
      cases h3 : takeWhile1 (fun c => !isSpaceC c) t with
      | some p =>
        obtain ⟨a, b⟩ := p
        simp only [h3, Option.some.injEq, Prod.mk.injEq] at h
        obtain ⟨-, h4⟩ := h
        subst h4
        exact Nat.le_trans (takeWhile1_rest_length h3) (dropLit_rest_length h2)
      | none => simp only [h3] at h; exact absurd h (by simp)
    | none => simp only [h2] at h; exact absurd h (by simp)

theorem matchResTail_rest_length {rest1 u r : List Char}
    (h : matchResTail rest1 = some (u, r)) : r.length ≤ rest1.length := by
  cases rest1 with
  | nil => exact absurd h (by simp [matchResTail])
  | cons q t2 =>
    simp only [matchResTail] at h
    split at h
    · cases h2 : takeWhile1 isSpaceC t2 with
      | some p =>
        obtain ⟨sp1, t3⟩ := p
        simp only [h2] at h
        cases h3 : dropLit lisLit t3 with
        | some t4 =>
          simp only [h3] at h
          cases h4 : takeWhile1 isSpaceC t4 with
          | some p2 =>
            obtain ⟨sp2, t5⟩ := p2
            simp only [h4] at h
            have e1 : r.length ≤ t5.length := matchUrl_rest_length h
            have e2 : t5.length ≤ t4.length := takeWhile1_rest_length h4
            have e3 : t4.length ≤ t3.length := dropLit_rest_length h3
            have e4 : t3.length ≤ t2.length := takeWhile1_rest_length h2
            simp only [List.length_cons]
            omega
          | none => simp only [h4] at h; exact absurd h (by simp)
        | none => simp only [h3] at h; exact absurd h (by simp)
      | none => simp only [h2] at h; exact absurd h (by simp)
    · exact absurd h (by simp)

theorem matchResAt_rest_length {cs n u r : List Char}
    (h : matchResAt cs = some (n, u, r)) : r.length < cs.length := by
  cases cs with
  | nil => exact absurd h (by simp [matchResAt])
  | cons c t =>
    cases t with
    | nil => exact absurd h (by simp [matchResAt])
    | cons c0 t1 =>
      simp only [matchResAt] at h
      split at h
      · cases h1 : takeWhile1 isWordLikeC t1 with
        | some p =>
          obtain ⟨run, rest1⟩ := p
          simp only [h1] at h
          cases h2 : matchResTail rest1 with
          | some p2 =>
            obtain ⟨u2, r2⟩ := p2
            simp only [h2, Option.some.injEq, Prod.mk.injEq] at h
            obtain ⟨-, -, h5⟩ := h
            subst h5
            have e1 : r2.length ≤ rest1.length := matchResTail_rest_length h2
            have e2 : rest1.length ≤ t1.length := takeWhile1_rest_length h1
            simp only [List.length_cons]
            omega
          | none => simp only [h2] at h; exact absurd h (by simp)
        | none => simp only [h1] at h; exact absurd h (by simp)
      · exact absurd h (by simp)

theorem findResF_fuel_irrel (f1 : Nat) : ∀ (f2 : Nat) (cs : List Char),
    cs.length ≤ f1 → cs.length ≤ f2 → findResF f1 cs = findResF f2 cs := by
  induction f1 using Nat.strong_induction_on with
  | _ f1 ih =>
    intro f2 cs hl1 hl2
    cases cs with
    | nil =>
      cases f1 <;> cases f2 <;> simp [findResF]
    | cons c t =>
      simp only [List.length_cons] at hl1 hl2
      cases f1 with
      | zero => omega
      | succ g1 =>
        cases f2 with
        | zero => omega
        | succ g2 =>
          simp only [findResF]
          cases h : matchResAt (c :: t) with
          | some p =>
            obtain ⟨n, u, rest⟩ := p
            have hr : rest.length < t.length + 1 := by
              have := matchResAt_rest_length h
              simpa using this
            have e1 : findResF g1 rest = findResF rest.length rest :=
              ih g1 (by omega) rest.length rest (by omega) (by omega)
            have e2 : findResF g2 rest = findResF rest.length rest := by
              cases Nat.lt_or_ge rest.length (g1 + 1) with
              | inl _ =>
                cases Nat.eq_or_lt_of_le hl2 with
                | _ =>
                  exact (ih g1 (by omega) g2 rest (by omega) (by omega)).symm.trans e1
              | inr hge => omega
            simp [e1, e2]
          | none =>
            have e1 : findResF g1 t = findResF t.length t :=
              ih g1 (by omega) t.length t (by omega) (by omega)
            have e2 : findResF g2 t = findResF t.length t := by
              exact (ih g1 (by omega) g2 t (by omega) (by omega)).symm.trans e1
            simp [e1, e2]

theorem findRes_nil : findRes [] = [] := rfl

theorem findRes_cons (c : Char) (t : List Char) :
    findRes (c :: t) =
      match matchResAt (c :: t) with
      | some (n, u, rest) => (n, u) :: findRes rest
      | none => findRes t := by
  unfold findRes
  simp only [List.length_cons, findResF]
  cases h : matchResAt (c :: t) with
  | some p =>
    obtain ⟨n, u, rest⟩ := p
    have hr : rest.length < t.length + 1 := by
      have := matchResAt_rest_length h
      simpa using this
    show (n, u) :: findResF t.length rest = (n, u) :: findResF rest.length rest
    rw [findResF_fuel_irrel t.length rest.length rest (by omega) (by omega)]
  | none =>
    rfl

example :
    parse_log_content "info: Now listening on: https://localhost:15234\n".toList =
      { dashboard_url := some "https://localhost:15234".toList, service_urls := [] } := by
  decide

example :
    (parse_log_content ("Now listening on: https://localhost:15234\n".toList ++
        "Login to the dashboard at https://localhost:15234/login?t=abc123\n".toList)).dashboard_url =
      some "https://localhost:15234/login?t=abc123".toList := by
  decide

example :
    lookupSU (parse_log_content "\"apiservice\" is listening on https://localhost:52341\n\"frontend\" is listening on https://localhost:52342\n".toList).service_urls
      "frontend".toList = some "https://localhost:52342".toList := by
  decide

example : parse_log_content "".toList = { dashboard_url := none, service_urls := [] } := by
  decide

theorem read_frame_rest_length {s : List Nat} {p : Nat × List Nat} {r : List Nat}
    (h : read_frame s = some (p, r)) : r.length < s.length := by
  match s, h with
  | ch :: lo :: hi :: rest, h =>
    simp only [read_frame] at h
    split at h
    · simp only [Option.some.injEq, Prod.mk.injEq] at h
      obtain ⟨-, h2⟩ := h
      subst h2
      simp only [List.length_cons, List.length_drop]
      omega
    · exact absurd h (by simp)

theorem readFramesF_fuel_irrel (f1 : Nat) : ∀ (f2 : Nat) (s : List Nat),
    s.length ≤ f1 → s.length ≤ f2 → readFramesF f1 s = readFramesF f2 s := by
  induction f1 using Nat.strong_induction_on with
  | _ f1 ih =>
    intro f2 s hl1 hl2
    cases f1 with
    | zero =>
      cases f2 with
      | zero => rfl
      | succ g2 =>
        have hs : s = [] := List.length_eq_zero.mp (Nat.le_zero.mp hl1)
        subst hs
        simp [readFramesF, read_frame]
    | succ g1 =>
      cases f2 with
      | zero =>
        have hs : s = [] := List.length_eq_zero.mp (Nat.le_zero.mp hl2)
        subst hs
        simp [readFramesF, read_frame]
      | succ g2 =>
        simp only [readFramesF]
        cases h : read_frame s with
        | some q =>
          obtain ⟨p, rest⟩ := q
          have hr : rest.length < s.length := read_frame_rest_length h
          show p :: readFramesF g1 rest = p :: readFramesF g2 rest
          rw [ih g1 (by omega) g2 rest (by omega) (by omega)]
        | none => rfl

theorem read_frames_eq (s : List Nat) :
    read_frames s =
      match read_frame s with
      | some (p, rest) => p :: read_frames rest
      | none => [] := by
  unfold read_frames
  cases s with
  | nil => rfl
  | cons b bs =>
    simp only [List.length_cons, readFramesF]
    cases h : read_frame (b :: bs) with
    | some q =>
      obtain ⟨p, rest⟩ := q
      have hr : rest.length < (b :: bs).length := read_frame_rest_length h
      simp only [List.length_cons] at hr
      show p :: readFramesF bs.length rest = p :: readFramesF rest.length rest
      rw [readFramesF_fuel_irrel bs.length rest.length rest (by omega) (by omega)]
    | none => rfl

example : parseJson (resizeJson 80 24) =
    some (JVal.jobj [("resize".toList, JVal.jarr [JVal.jnum 80, JVal.jnum 24])]) := by
  rfl

example : handle_control_message (resizeJson 80 24) = CtrlAction.resize 80 24 := by
  decide

example : handle_control_message "\"kill\"".toList = CtrlAction.kill := by
  decide

example : (resizeJson 80 24).length = 18 := by decide

example :
    resolve
      { name := "daily-dev", description := some "Test blueprint"
        defaults := some
          { source := some "C:/Users/test/Source/Receipts"
            auto_start_aspire := some true, auto_spawn_agent := some true
            agent := some
              { prompt_template := some "Work on \x7bbranch\x7d in \x7bslot_name\x7d"
                allowed_tools := some "Bash,Read", max_turns := some 50 } }
        slots :=
          [{ name := "api-cleanup", branch := some "feature/api-cleanup", source := none
             auto_start_aspire := none, auto_spawn_agent := none
             agent := some
               { prompt_template := some "Custom prompt for \x7bslot_name\x7d"
                 allowed_tools := none, max_turns := none } },
           { name := "ui-dashboard", branch := some "feature/ui-dashboard", source := none
             auto_start_aspire := some false, auto_spawn_agent := none, agent := none }] } =
    Except.ok
      [{ name := "api-cleanup", source := "C:/Users/test/Source/Receipts"
         branch := some "feature/api-cleanup", auto_start_aspire := true
         auto_spawn_agent := true, prompt := some "Custom prompt for api-cleanup"
         allowed_tools := some "Bash,Read", max_turns := some 50 },
       { name := "ui-dashboard", source := "C:/Users/test/Source/Receipts"
         branch := some "feature/ui-dashboard", auto_start_aspire := false
         auto_spawn_agent := true
         prompt := some "Work on feature/ui-dashboard in ui-dashboard"
         allowed_tools := some "Bash,Read", max_turns := some 50 }] := by
  rfl

/-! ## Framing round trip (claim C3) -/

theorem take_min_length (l : List Nat) (n : Nat) : l.take (min l.length n) = l.take n := by
  cases Nat.le_total l.length n with
  | inl h => rw [Nat.min_eq_left h, List.take_length, List.take_of_length_le h]
  | inr h => rw [Nat.min_eq_right h]

theorem write_read_one (c : Nat) (p rest : List Nat) :
    read_frame (write_frame c p ++ rest) = some ((c, p.take 65535), rest) := by
  have hm : min p.length 65535 % 256 + 256 * (min p.length 65535 / 256) =
      min p.length 65535 := Nat.mod_add_div _ _
  have hlen : (p.take (min p.length 65535)).length = min p.length 65535 := by
    simp only [List.length_take]
    omega
  simp only [write_frame, List.cons_append, read_frame, hm]
  rw [if_pos]
  · rw [List.take_left' hlen, List.drop_left' hlen, take_min_length]
  · simp only [List.length_append]
    omega

/-- Claim C3: framed-IPC round trip.  For every sequence of (channel,
payload) pairs written with `write_frame` onto a byte stream — TCP delivery
modelled as the concatenation of the written bytes, independent of how they
are split across writes — repeated `read_frame` calls return exactly the
pairs (channel, payload truncated to its first 65535 bytes) in order; in
particular the reader always finds exactly the announced number of payload
bytes and never blocks on a mismatched length. -/
theorem framed_ipc_roundtrip (frames : List (Nat × List Nat)) :
    read_frames ((frames.map fun p => write_frame p.1 p.2).flatten) =
      frames.map fun p => (p.1, p.2.take 65535) := by
  induction frames with
  | nil => rfl
  | cons f t ih =>
    obtain ⟨c, p⟩ := f
    simp only [List.map_cons, List.flatten_cons]
    rw [read_frames_eq, write_read_one c p]
    simp only [ih]

/-! ## Host exit frame (claim C2) -/

/-- Claim C2: what a connected client actually receives when the child
exits with code 0.  `run_host` pushes the pre-framed CONTROL blob into the
same broadcast channel as raw PTY data, and the per-client forwarder of
`handle_client` wraps every broadcast blob in a PTY_OUTPUT frame — so the
client reads a single frame with channel 0x01 whose payload is the raw
control-frame bytes, and never a frame with channel 0x03.  The claim (and
the client code in `crates/ao-tui/src/main.rs`, which waits for a CONTROL
frame containing `exited`) expects channel 0x03. -/
theorem host_exit_frame_is_double_framed :
    read_frames (client_forward (exit_frame_bytes 0)) =
      [(CHANNEL_PTY_OUTPUT, exit_frame_bytes 0)] ∧
    (read_frames (client_forward (exit_frame_bytes 0))).all
      (fun f => !(f.1 == CHANNEL_CONTROL)) = true ∧
    CHANNEL_PTY_OUTPUT ≠ CHANNEL_CONTROL := by
  refine ⟨by decide, by decide, by decide⟩

/-! ## Blueprint resolve vs validate (claim C6) -/

theorem slotErrsFrom_eq_nil {hds : Bool} :
    ∀ (l : List BlueprintSlotEntry) (i : Nat), slotErrsFrom hds i l = [] →
      ∀ s ∈ l, (s.source.isNone && !hds) = false := by
  intro l
  induction l with
  | nil => intro i _ s hs; cases hs
  | cons a t ih =>
    intro i h s hs
    simp only [slotErrsFrom, List.append_eq_nil] at h
    obtain ⟨⟨h1, h2⟩, h3⟩ := h
    rcases List.mem_cons.mp hs with rfl | hmem
    · cases hc : (s.source.isNone && !hds) with
      | false => rfl
      | true => rw [hc] at h2; simp at h2
    · exact ih (i + 1) h3 s hmem

theorem resolveSlots_isOk {dflt : Option BlueprintDefaults} :
    ∀ (l : List BlueprintSlotEntry),
      (∀ s ∈ l, (s.source.or (dflt.bind fun d => d.source)).isSome = true) →
      ∃ rs, resolveSlots dflt l = Except.ok rs := by
  intro l
  induction l with
  | nil => exact fun _ => ⟨[], rfl⟩
  | cons a t ih =>
    intro h
    have ha := h a (List.mem_cons_self a t)
    obtain ⟨rs, hrs⟩ := ih fun s hs => h s (List.mem_cons_of_mem a hs)
    cases hre : resolveEntry dflt a with
    | error e =>
      cases hsrc : a.source.or (dflt.bind fun d => d.source) with
      | none => rw [hsrc] at ha; simp at ha
      | some src => simp only [resolveEntry, hsrc] at hre; exact absurd hre (by simp)
    | ok r =>
      exact ⟨r :: rs, by simp only [resolveSlots, hre, hrs]⟩

/-- Claim C6 counterexample: a blueprint whose single entry carries the
explicit empty-string source passes `validate` (the source is present), and
`resolve` returns `Ok` with `source = ""` — although the merged source is
the empty string, contradicting the claim that `resolve` succeeds only when
every merged source is non-empty. -/
theorem resolve_accepts_empty_merged_source :
    validateErrors
      { name := "b", description := none, defaults := none
        slots := [{ name := "s", branch := none, source := some ""
                    auto_start_aspire := none, auto_spawn_agent := none, agent := none }] }
      = [] ∧
    resolve
      { name := "b", description := none, defaults := none
        slots := [{ name := "s", branch := none, source := some ""
                    auto_start_aspire := none, auto_spawn_agent := none, agent := none }] }
      = Except.ok [{ name := "s", source := "", branch := none
                     auto_start_aspire := false, auto_spawn_agent := false
                     prompt := none, allowed_tools := none, max_turns := none }] ∧
    ("" : String).isEmpty = true := by
  refine ⟨by decide, rfl, by decide⟩

/-- Claim C6 (amended): `resolve(bp)` returns `Ok` exactly when
`validate(bp)` reports no errors; validation only requires each entry to
have a source present after merging with the defaults (an empty-string
source is accepted), and whenever validation passes the merge can never
fail, so the claim's extra non-emptiness condition is not checked. -/
theorem resolve_ok_iff_validate (bp : Blueprint) :
    (resolve bp).isOk = true ↔ validateErrors bp = [] := by
  unfold resolve validate
  by_cases h : (validateErrors bp).isEmpty
  case pos =>
    have hnil : validateErrors bp = [] := List.isEmpty_iff.mp h
    have hslots : slotErrsFrom ((bp.defaults.bind fun d => d.source)).isSome 0 bp.slots = [] := by
      have h2 := hnil
      unfold validateErrors at h2
      rw [List.append_eq_nil] at h2
      exact h2.2
    have hcond : ∀ s ∈ bp.slots,
        (s.source.or (bp.defaults.bind fun d => d.source)).isSome = true := by
      intro s hs
      have hc := slotErrsFrom_eq_nil bp.slots 0 hslots s hs
      cases hsrc : s.source with
      | some v => simp [Option.or, hsrc]
      | none =>
        rw [hsrc] at hc
        simp only [Option.isNone_none, Bool.true_and, Bool.not_eq_false'] at hc
        show ((bp.defaults.bind fun d => d.source)).isSome = true
        exact hc
    obtain ⟨rs, hrs⟩ := resolveSlots_isOk bp.slots hcond
    simp only [h, if_true, hrs]
    exact ⟨fun _ => hnil, fun _ => rfl⟩
  case neg =>
    simp only [h, if_false]
    constructor
    · intro hok; exact absurd hok (by simp [Except.isOk, Except.toBool])
    · intro hnil; exact absurd (List.isEmpty_iff.mpr hnil) h

/-! ## Resize control frame (claim C7) -/

/-- Claim C7 counterexample: the resize frame for (80, 24) carries the
payload `\x7b"resize":[80,24]\x7d`, which is 18 bytes long, so the
little-endian length field is 18, not 14 as the claim states. -/
theorem send_resize_length_field_is_18_not_14 :
    (send_resize_frame 80 24).get? 1 = some 18 ∧
    (send_resize_frame 80 24).get? 2 = some 0 ∧
    (utf8 (resizeJson 80 24)).length = 18 ∧
    (18 : Nat) ≠ 14 := by
  refine ⟨by decide, by decide, by decide, by decide⟩

/-- Claim C7 (amended): `send_resize(80, 24)` writes exactly one frame with
channel 0x03 and length field 18 whose payload is exactly the UTF-8 JSON
`\x7b"resize":[80,24]\x7d`, and the host's `handle_control_message` applies
a PTY resize to 80 columns × 24 rows on that payload. -/
theorem send_resize_frame_roundtrip :
    read_frames (send_resize_frame 80 24) =
      [(CHANNEL_CONTROL, utf8 (resizeJson 80 24))] ∧
    (utf8 (resizeJson 80 24)).length = 18 ∧
    handle_control_message (resizeJson 80 24) = CtrlAction.resize 80 24 := by
  refine ⟨by decide, by decide, by decide⟩

/-! ## Discovery: list and character-class helper lemmas (claims C1, C8) -/

theorem hasPfx_iff {a s : List Char} : hasPfx a s = true ↔ ∃ t, s = a ++ t := by
  induction a generalizing s with
  | nil => simp [hasPfx]
  | cons x xs ih =>
    cases s with
    | nil =>
      simp only [hasPfx, List.cons_append]
      constructor
      · intro h; cases h
      · rintro ⟨t, ht⟩; cases ht
    | cons y ys =>
      simp only [hasPfx, Bool.and_eq_true, beq_iff_eq, ih, List.cons_append]
      constructor
      · rintro ⟨rfl, t, rfl⟩; exact ⟨t, rfl⟩
      · rintro ⟨t, ht⟩
        injection ht with h1 h2
        exact ⟨h1.symm, t, h2⟩

theorem hasPfx_append_self (a X : List Char) : hasPfx a (a ++ X) = true :=
  hasPfx_iff.mpr ⟨X, rfl⟩

theorem dropWhile_append_ne {p : Char → Bool} {l : List Char} (e : List Char)
    (h : l.dropWhile p ≠ []) : (l ++ e).dropWhile p = l.dropWhile p ++ e := by
  induction l with
  | nil => simp [List.dropWhile] at h
  | cons x xs ih =>
    simp only [List.cons_append, List.dropWhile]
    cases hx : p x with
    | true =>
      simp only [List.dropWhile, hx] at h
      simpa using ih h
    | false => simp

theorem takeWhile_append_ne {p : Char → Bool} {l : List Char} (e : List Char)
    (h : l.dropWhile p ≠ []) : (l ++ e).takeWhile p = l.takeWhile p := by
  induction l with
  | nil => simp [List.dropWhile] at h
  | cons x xs ih =>
    simp only [List.cons_append, List.takeWhile]
    cases hx : p x with
    | true =>
      simp only [List.dropWhile, hx] at h
      simpa using ih h
    | false => simp

theorem dropWhile_append_nil {p : Char → Bool} {l : List Char} (e : List Char)
    (h : l.dropWhile p = []) : (l ++ e).dropWhile p = e.dropWhile p := by
  induction l with
  | nil => simp
  | cons x xs ih =>
    simp only [List.dropWhile, List.cons_append] at h ⊢
    cases hx : p x with
    | true =>
      rw [hx] at h
      simpa using ih h
    | false => rw [hx] at h; cases h

theorem takeWhile_append_nil {p : Char → Bool} {l : List Char} (e : List Char)
    (h : l.dropWhile p = []) : (l ++ e).takeWhile p = l ++ e.takeWhile p := by
  induction l with
  | nil => simp
  | cons x xs ih =>
    simp only [List.dropWhile, List.takeWhile, List.cons_append] at h ⊢
    cases hx : p x with
    | true =>
      rw [hx] at h
      simpa using ih h
    | false => rw [hx] at h; cases h

theorem takeWhile_all_append {p : Char → Bool} {l : List Char} {d : Char}
    (r : List Char) (hl : ∀ c ∈ l, p c = true) (hd : p d = false) :
    (l ++ d :: r).takeWhile p = l := by
  induction l with
  | nil => simp [List.takeWhile, hd]
  | cons x xs ih =>
    simp only [List.cons_append, List.takeWhile, hl x (List.mem_cons_self x xs)]
    simpa using ih fun c hc => hl c (List.mem_cons_of_mem x hc)

theorem dropWhile_all_append {p : Char → Bool} {l : List Char} {d : Char}
    (r : List Char) (hl : ∀ c ∈ l, p c = true) (hd : p d = false) :
    (l ++ d :: r).dropWhile p = d :: r := by
  induction l with
  | nil => simp [List.dropWhile, hd]
  | cons x xs ih =>
    simp only [List.cons_append, List.dropWhile, hl x (List.mem_cons_self x xs)]
    exact ih fun c hc => hl c (List.mem_cons_of_mem x hc)

theorem pfxL_append_cases {l a b : List Char} (h : l <+: a ++ b) :
    l <+: a ∨ ∃ w, l = a ++ w ∧ w <+: b := by
  obtain ⟨q, hq⟩ := h
  rcases List.append_eq_append_iff.mp hq.symm with ⟨w, hw1, hw2⟩ | ⟨w, hw1, hw2⟩
  · right
    exact ⟨w, hw1, q, hw2.symm⟩
  · left
    exact ⟨w, hw1.symm⟩

theorem pfxL_cons_cases {l : List Char} {a : Char} {b : List Char}
    (h : l <+: a :: b) : l = [] ∨ ∃ t, l = a :: t ∧ t <+: b := by
  obtain ⟨q, hq⟩ := h
  cases l with
  | nil => exact Or.inl rfl
  | cons x xs =>
    injection hq with h1 h2
    subst h1
    exact Or.inr ⟨xs, rfl, q, h2⟩

theorem wordlike_ne_quote {c : Char} (h : isWordLikeC c = true) : (c == '"') = false := by
  cases hq : (c == '"') with
  | false => rfl
  | true =>
    have : c = '"' := by simpa using hq
    subst this
    exact absurd h (by decide)

theorem space_ne_quote {c : Char} (h : isSpaceC c = true) : (c == '"') = false := by
  cases hq : (c == '"') with
  | false => rfl
  | true =>
    have : c = '"' := by simpa using hq
    subst this
    exact absurd h (by decide)

theorem space_not_word {c : Char} (h : isSpaceC c = true) : isWordC c = false := by
  simp only [isSpaceC, Bool.or_eq_true, Bool.and_eq_true, decide_eq_true_eq,
    beq_iff_eq] at h
  have halpha : isAlphaC c = false := by
    cases ha : isAlphaC c with
    | false => rfl
    | true =>
      simp only [isAlphaC, Bool.or_eq_true, Bool.and_eq_true, decide_eq_true_eq] at ha
      omega
  have hdigit : isDigitC c = false := by
    cases hd : isDigitC c with
    | false => rfl
    | true =>
      simp only [isDigitC, Bool.and_eq_true, decide_eq_true_eq] at hd
      omega
  have hq : (c == '_') = false := by
    cases hq : (c == '_') with
    | false => rfl
    | true =>
      have : c = '_' := by simpa using hq
      subst this
      exact absurd h (by decide)
  simp [isWordC, halpha, hdigit, hq]

theorem word_isWordLike {c : Char} (h : isWordC c = true) : isWordLikeC c = true := by
  simp [isWordLikeC, h]

/-! ## Discovery: how each matcher component behaves under appending -/

theorem dropLit_append {lit cs r : List Char} (e : List Char)
    (h : dropLit lit cs = some r) : dropLit lit (cs ++ e) = some (r ++ e) := by
  unfold dropLit at h
  split at h
  case isTrue hp =>
    obtain ⟨t, rfl⟩ := hasPfx_iff.mp hp
    rw [List.drop_left] at h
    obtain rfl : t = r := Option.some.inj h
    unfold dropLit
    rw [List.append_assoc, if_pos (hasPfx_append_self _ _), List.drop_left]
  case isFalse => exact absurd h (by simp)

theorem takeWhile1_append_ne {p : Char → Bool} {cs a r : List Char} (e : List Char)
    (h : takeWhile1 p cs = some (a, r)) (hr : r ≠ []) :
    takeWhile1 p (cs ++ e) = some (a, r ++ e) := by
  unfold takeWhile1 at h ⊢
  split at h
  · exact absurd h (by simp)
  case isFalse hne =>
    simp only [Option.some.injEq, Prod.mk.injEq] at h
    obtain ⟨rfl, rfl⟩ := h
    rw [takeWhile_append_ne e hr, dropWhile_append_ne e hr]
    rw [if_neg hne]

theorem takeWhile1_append_nil {p : Char → Bool} {cs a : List Char} (e : List Char)
    (h : takeWhile1 p cs = some (a, [])) :
    takeWhile1 p (cs ++ e) = some (a ++ e.takeWhile p, e.dropWhile p) := by
  unfold takeWhile1 at h ⊢
  split at h
  · exact absurd h (by simp)
  case isFalse hne =>
    simp only [Option.some.injEq, Prod.mk.injEq] at h
    obtain ⟨rfl, hdrop⟩ := h
    rw [takeWhile_append_nil e hdrop, dropWhile_append_nil e hdrop]
    have hcs : cs.takeWhile p = cs := by
      conv_rhs => rw [← List.takeWhile_append_dropWhile p cs]
      rw [hdrop, List.append_nil]
    rw [if_neg ?_]
    · rw [hcs]
    · intro hcontra
      rw [List.isEmpty_iff] at hcontra
      have hcs0 : cs = [] := (List.append_eq_nil.mp hcontra).1
      subst hcs0
      simp at hne

theorem hasPfx_https_of_http (X : List Char) :
    hasPfx httpsLit (httpLit ++ X) = false := rfl

theorem matchUrl_append_ne {cs u r : List Char} (e : List Char)
    (h : matchUrl cs = some (u, r)) (hr : r ≠ []) :
    matchUrl (cs ++ e) = some (u, r ++ e) := by
  unfold matchUrl at h ⊢
  cases h1 : dropLit httpsLit cs with
  | some t =>
    simp only [h1] at h
    cases h2 : takeWhile1 (fun c => !isSpaceC c) t with
    | some p =>
      obtain ⟨a, b⟩ := p
      simp only [h2, Option.some.injEq, Prod.mk.injEq] at h
      obtain ⟨rfl, rfl⟩ := h
      simp only [dropLit_append e h1, takeWhile1_append_ne e h2 hr]
    | none => simp only [h2] at h; exact absurd h (by simp)
  | none =>
    simp only [h1] at h
    cases h2 : dropLit httpLit cs with
    | some t =>
      simp only [h2] at h
      cases h3 : takeWhile1 (fun c => !isSpaceC c) t with
      | some p =>
        obtain ⟨a, b⟩ := p
        simp only [h3, Option.some.injEq, Prod.mk.injEq] at h
        obtain ⟨rfl, rfl⟩ := h
        have hs : dropLit httpsLit (cs ++ e) = none := by
          obtain ⟨t0, rfl⟩ := hasPfx_iff.mp (by
            unfold dropLit at h2
            split at h2
            case isTrue hp => exact hp
            case isFalse => exact absurd h2 (by simp))
          unfold dropLit
          rw [List.append_assoc, if_neg (by simp [hasPfx_https_of_http])]
        simp only [hs, dropLit_append e h2, takeWhile1_append_ne e h3 hr]
      | none => simp only [h3] at h; exact absurd h (by simp)
    | none => simp only [h2] at h; exact absurd h (by simp)

theorem matchUrl_append_nil {cs u : List Char} (e : List Char)
    (h : matchUrl cs = some (u, [])) :
    ∃ u2 r2, matchUrl (cs ++ e) = some (u2, r2) := by
  unfold matchUrl at h ⊢
  cases h1 : dropLit httpsLit cs with
  | some t =>
    simp only [h1] at h
    cases h2 : takeWhile1 (fun c => !isSpaceC c) t with
    | some p =>
      obtain ⟨a, b⟩ := p
      simp only [h2, Option.some.injEq, Prod.mk.injEq] at h
      obtain ⟨rfl, hb⟩ := h
      subst hb
      simp only [dropLit_append e h1, takeWhile1_append_nil e h2]
      exact ⟨_, _, rfl⟩
    | none => simp only [h2] at h; exact absurd h (by simp)
  | none =>
    simp only [h1] at h
    cases h2 : dropLit httpLit cs with
    | some t =>
      simp only [h2] at h
      cases h3 : takeWhile1 (fun c => !isSpaceC c) t with
      | some p =>
        obtain ⟨a, b⟩ := p
        simp only [h3, Option.some.injEq, Prod.mk.injEq] at h
        obtain ⟨rfl, hb⟩ := h
        subst hb
        have hs : dropLit httpsLit (cs ++ e) = none := by
          obtain ⟨t0, rfl⟩ := hasPfx_iff.mp (by
            unfold dropLit at h2
            split at h2
            case isTrue hp => exact hp
            case isFalse => exact absurd h2 (by simp))
          unfold dropLit
          rw [List.append_assoc, if_neg (by simp [hasPfx_https_of_http])]
        simp only [hs, dropLit_append e h2, takeWhile1_append_nil e h3]
        exact ⟨_, _, rfl⟩
      | none => simp only [h3] at h; exact absurd h (by simp)
    | none => simp only [h2] at h; exact absurd h (by simp)

theorem matchUrl_nil : matchUrl [] = none := rfl

theorem takeWhile1_nil {p : Char → Bool} : takeWhile1 p [] = none := rfl

theorem matchResTail_append_ne {r1 u r : List Char} (e : List Char)
    (h : matchResTail r1 = some (u, r)) (hr : r ≠ []) :
    matchResTail (r1 ++ e) = some (u, r ++ e) := by
  cases r1 with
  | nil => exact absurd h (by simp [matchResTail])
  | cons q t2 =>
    simp only [matchResTail, List.cons_append] at h ⊢
    split at h
    case isTrue hq =>
      rw [if_pos hq]
      cases h2 : takeWhile1 isSpaceC t2 with
      | some p =>
        obtain ⟨sp1, t3⟩ := p
        simp only [h2] at h
        cases h3 : dropLit lisLit t3 with
        | some t4 =>
          simp only [h3] at h
          cases h4 : takeWhile1 isSpaceC t4 with
          | some p2 =>
            obtain ⟨sp2, t5⟩ := p2
            simp only [h4] at h
            have ht3 : t3 ≠ [] := by
              intro hc
              subst hc
              simp [dropLit, hasPfx] at h3
            have ht5 : t5 ≠ [] := by
              intro hc
              subst hc
              rw [matchUrl_nil] at h
              cases h
            simp only [takeWhile1_append_ne e h2 ht3, dropLit_append e h3,
              takeWhile1_append_ne e h4 ht5, matchUrl_append_ne e h hr]
          | none => simp only [h4] at h; exact absurd h (by simp)
        | none => simp only [h3] at h; exact absurd h (by simp)
      | none => simp only [h2] at h; exact absurd h (by simp)
    case isFalse => exact absurd h (by simp)

theorem matchResTail_append_nil {r1 u : List Char} (e : List Char)
    (h : matchResTail r1 = some (u, [])) :
    ∃ u2 r2, matchResTail (r1 ++ e) = some (u2, r2) := by
  cases r1 with
  | nil => exact absurd h (by simp [matchResTail])
  | cons q t2 =>
    simp only [matchResTail, List.cons_append] at h ⊢
    split at h
    case isTrue hq =>
      rw [if_pos hq]
      cases h2 : takeWhile1 isSpaceC t2 with
      | some p =>
        obtain ⟨sp1, t3⟩ := p
        simp only [h2] at h
        cases h3 : dropLit lisLit t3 with
        | some t4 =>
          simp only [h3] at h
          cases h4 : takeWhile1 isSpaceC t4 with
          | some p2 =>
            obtain ⟨sp2, t5⟩ := p2
            simp only [h4] at h
            have ht3 : t3 ≠ [] := by
              intro hc
              subst hc
              simp [dropLit, hasPfx] at h3
            have ht5 : t5 ≠ [] := by
              intro hc
              subst hc
              rw [matchUrl_nil] at h
              cases h
            simp only [takeWhile1_append_ne e h2 ht3, dropLit_append e h3,
              takeWhile1_append_ne e h4 ht5]
            obtain ⟨u2, r2, h5⟩ := matchUrl_append_nil e h
            exact ⟨u2, r2, h5⟩
          | none => simp only [h4] at h; exact absurd h (by simp)
        | none => simp only [h3] at h; exact absurd h (by simp)
      | none => simp only [h2] at h; exact absurd h (by simp)
    case isFalse => exact absurd h (by simp)

theorem matchResAt_append_ne {cs n u r : List Char} (e : List Char)
    (h : matchResAt cs = some (n, u, r)) (hr : r ≠ []) :
    matchResAt (cs ++ e) = some (n, u, r ++ e) := by
  cases cs with
  | nil => exact absurd h (by simp [matchResAt])
  | cons c t =>
    cases t with
    | nil => exact absurd h (by simp [matchResAt])
    | cons c0 t1 =>
      simp only [matchResAt, List.cons_append] at h ⊢
      split at h
      case isTrue hcw =>
        rw [if_pos hcw]
        cases h1 : takeWhile1 isWordLikeC t1 with
        | some p =>
          obtain ⟨run, rest1⟩ := p
          simp only [h1] at h
          cases h2 : matchResTail rest1 with
          | some p2 =>
            obtain ⟨u2, r2⟩ := p2
            simp only [h2, Option.some.injEq, Prod.mk.injEq] at h
            obtain ⟨rfl, rfl, rfl⟩ := h
            have hrest1 : rest1 ≠ [] := by
              intro hc
              subst hc
              simp [matchResTail] at h2
            simp only [takeWhile1_append_ne e h1 hrest1, matchResTail_append_ne e h2 hr]
          | none => simp only [h2] at h; exact absurd h (by simp)
        | none => simp only [h1] at h; exact absurd h (by simp)
      case isFalse => exact absurd h (by simp)

theorem matchResAt_append_nil {cs n u : List Char} (e : List Char)
    (h : matchResAt cs = some (n, u, [])) :
    ∃ u2 r2, matchResAt (cs ++ e) = some (n, u2, r2) := by
  cases cs with
  | nil => exact absurd h (by simp [matchResAt])
  | cons c t =>
    cases t with
    | nil => exact absurd h (by simp [matchResAt])
    | cons c0 t1 =>
      simp only [matchResAt, List.cons_append] at h ⊢
      split at h
      case isTrue hcw =>
        rw [if_pos hcw]
        cases h1 : takeWhile1 isWordLikeC t1 with
        | some p =>
          obtain ⟨run, rest1⟩ := p
          simp only [h1] at h
          cases h2 : matchResTail rest1 with
          | some p2 =>
            obtain ⟨u2, r2⟩ := p2
            simp only [h2, Option.some.injEq, Prod.mk.injEq] at h
            obtain ⟨rfl, rfl, hr2⟩ := h
            subst hr2
            have hrest1 : rest1 ≠ [] := by
              intro hc
              subst hc
              simp [matchResTail] at h2
            obtain ⟨u3, r3, h3⟩ := matchResTail_append_nil e h2
            simp only [takeWhile1_append_ne e h1 hrest1, h3]
            exact ⟨u3, r3, rfl⟩
          | none => simp only [h2] at h; exact absurd h (by simp)
        | none => simp only [h1] at h; exact absurd h (by simp)
      case isFalse => exact absurd h (by simp)

theorem matchLitUrlAt_append {lit cs : List Char} (e : List Char)
    (h : (matchLitUrlAt lit cs).isSome = true) :
    (matchLitUrlAt lit (cs ++ e)).isSome = true := by
  unfold matchLitUrlAt at h ⊢
  cases h1 : dropLit lit cs with
  | some t =>
    simp only [h1] at h
    cases h2 : takeWhile1 isSpaceC t with
    | some p =>
      obtain ⟨sp, t2⟩ := p
      simp only [h2] at h
      cases h3 : matchUrl t2 with
      | some p2 =>
        obtain ⟨u, r⟩ := p2
        have ht2 : t2 ≠ [] := by
          intro hc
          subst hc
          rw [matchUrl_nil] at h3
          cases h3
        cases hrr : r with
        | nil =>
          subst hrr
          obtain ⟨u2, r2, h4⟩ := matchUrl_append_nil e h3
          simp only [dropLit_append e h1, takeWhile1_append_ne e h2 ht2, h4]
          rfl
        | cons d ds =>
          subst hrr
          simp only [dropLit_append e h1, takeWhile1_append_ne e h2 ht2,
            matchUrl_append_ne e h3 (by simp)]
          rfl
      | none => simp only [h3] at h; exact absurd h (by simp)
    | none => simp only [h2] at h; exact absurd h (by simp)
  | none => simp only [h1] at h; exact absurd h (by simp)

theorem scanFirst_append {f : List Char → Option (List Char)} {cs : List Char}
    (e : List Char) (hf : ∀ x, (f x).isSome = true → (f (x ++ e)).isSome = true)
    (h : (scanFirst f cs).isSome = true) :
    (scanFirst f (cs ++ e)).isSome = true := by
  induction cs with
  | nil => simp [scanFirst] at h
  | cons c t ih =>
    simp only [scanFirst, List.cons_append] at h ⊢
    cases h1 : f (c :: t) with
    | some u =>
      have := hf (c :: t) (by rw [h1]; rfl)
      cases h2 : f (c :: (t ++ e)) with
      | some v => rfl
      | none => rw [List.cons_append] at this; rw [h2] at this; cases this
    | none =>
      rw [h1] at h
      have := ih h
      cases h2 : f (c :: (t ++ e)) with
      | some v => rfl
      | none => exact this

/-! ## Discovery: exact decomposition of a resource match -/

theorem dropLit_eq_some_iff {lit cs r : List Char} :
    dropLit lit cs = some r ↔ cs = lit ++ r := by
  constructor
  · intro h
    unfold dropLit at h
    split at h
    case isTrue hp =>
      obtain ⟨t, rfl⟩ := hasPfx_iff.mp hp
      rw [List.drop_left] at h
      obtain rfl : t = r := Option.some.inj h
      rfl
    case isFalse => exact absurd h (by simp)
  · rintro rfl
    unfold dropLit
    rw [if_pos (hasPfx_append_self _ _), List.drop_left]

theorem takeWhile1_eq_some {p : Char → Bool} {cs a r : List Char}
    (h : takeWhile1 p cs = some (a, r)) :
    a = cs.takeWhile p ∧ r = cs.dropWhile p ∧ a ≠ [] := by
  unfold takeWhile1 at h
  split at h
  case isTrue => exact absurd h (by simp)
  case isFalse hne =>
    simp only [Option.some.injEq, Prod.mk.injEq] at h
    obtain ⟨rfl, rfl⟩ := h
    refine ⟨rfl, rfl, ?_⟩
    intro hc
    rw [hc] at hne
    simp at hne

theorem takeWhile1_exact {p : Char → Bool} {l : List Char} {d : Char} (r : List Char)
    (hl : ∀ c ∈ l, p c = true) (hd : p d = false) (hne : l ≠ []) :
    takeWhile1 p (l ++ d :: r) = some (l, d :: r) := by
  unfold takeWhile1
  rw [takeWhile_all_append r hl hd, dropWhile_all_append r hl hd,
    if_neg (by simp [hne])]

theorem takeWhile1_cons_pos (p : Char → Bool) (d : Char) (w : List Char)
    (hd : p d = true) :
    takeWhile1 p (d :: w) = some (d :: w.takeWhile p, w.dropWhile p) := by
  unfold takeWhile1
  simp [List.takeWhile, List.dropWhile, hd]

theorem matchUrl_starts {sch : List Char} {d : Char} (w2 : List Char)
    (hsch : sch = httpsLit ∨ sch = httpLit) (hd : isSpaceC d = false) :
    ∃ u r, matchUrl (sch ++ d :: w2) = some (u, r) := by
  have hdns : (fun c => !isSpaceC c) d = true := by simp [hd]
  rcases hsch with rfl | rfl
  · unfold matchUrl
    simp only [dropLit_eq_some_iff.mpr (rfl : httpsLit ++ d :: w2 = httpsLit ++ d :: w2),
      takeWhile1_cons_pos (fun c => !isSpaceC c) d w2 hdns]
    exact ⟨_, _, rfl⟩
  · have hs : dropLit httpsLit (httpLit ++ d :: w2) = none := by
      unfold dropLit
      rw [if_neg (by simp [hasPfx_https_of_http])]
    unfold matchUrl
    simp only [hs, dropLit_eq_some_iff.mpr (rfl : httpLit ++ d :: w2 = httpLit ++ d :: w2),
      takeWhile1_cons_pos (fun c => !isSpaceC c) d w2 hdns]
    exact ⟨_, _, rfl⟩

theorem matchUrl_decomp {t5 u r : List Char} (h : matchUrl t5 = some (u, r)) :
    ∃ sch urun w, (sch = httpsLit ∨ sch = httpLit) ∧ t5 = sch ++ w ∧
      urun = w.takeWhile (fun c => !isSpaceC c) ∧ r = w.dropWhile (fun c => !isSpaceC c) ∧
      u = sch ++ urun ∧ urun ≠ [] := by
  unfold matchUrl at h
  cases h1 : dropLit httpsLit t5 with
  | some t =>
    simp only [h1] at h
    cases h2 : takeWhile1 (fun c => !isSpaceC c) t with
    | some p =>
      obtain ⟨a, b⟩ := p
      simp only [h2, Option.some.injEq, Prod.mk.injEq] at h
      obtain ⟨rfl, rfl⟩ := h
      obtain ⟨ha, hb, hane⟩ := takeWhile1_eq_some h2
      exact ⟨httpsLit, a, t, Or.inl rfl, dropLit_eq_some_iff.mp h1, ha, hb, rfl, hane⟩
    | none => simp only [h2] at h; exact absurd h (by simp)
  | none =>
    simp only [h1] at h
    cases h2 : dropLit httpLit t5 with
    | some t =>
      simp only [h2] at h
      cases h3 : takeWhile1 (fun c => !isSpaceC c) t with
      | some p =>
        obtain ⟨a, b⟩ := p
        simp only [h3, Option.some.injEq, Prod.mk.injEq] at h
        obtain ⟨rfl, rfl⟩ := h
        obtain ⟨ha, hb, hane⟩ := takeWhile1_eq_some h3
        exact ⟨httpLit, a, t, Or.inr rfl, dropLit_eq_some_iff.mp h2, ha, hb, rfl, hane⟩
      | none => simp only [h3] at h; exact absurd h (by simp)
    | none => simp only [h2] at h; exact absurd h (by simp)

theorem matchResTail_decomp {r1 u r : List Char} (h : matchResTail r1 = some (u, r)) :
    ∃ sp1 sp2 sch urun,
      r1 = '"' :: (sp1 ++ (lisLit ++ (sp2 ++ (sch ++ (urun ++ r))))) ∧
      u = sch ++ urun ∧
      sp1 ≠ [] ∧ (∀ c ∈ sp1, isSpaceC c = true) ∧
      sp2 ≠ [] ∧ (∀ c ∈ sp2, isSpaceC c = true) ∧
      (sch = httpsLit ∨ sch = httpLit) ∧
      urun ≠ [] ∧ (∀ c ∈ urun, isSpaceC c = false) := by
  cases r1 with
  | nil => exact absurd h (by simp [matchResTail])
  | cons q t2 =>
    simp only [matchResTail] at h
    split at h
    case isTrue hq =>
      obtain rfl : q = '"' := by simpa using hq
      cases h2 : takeWhile1 isSpaceC t2 with
      | some p =>
        obtain ⟨sp1, t3⟩ := p
        simp only [h2] at h
        cases h3 : dropLit lisLit t3 with
        | some t4 =>
          simp only [h3] at h
          cases h4 : takeWhile1 isSpaceC t4 with
          | some p2 =>
            obtain ⟨sp2, t5⟩ := p2
            simp only [h4] at h
            obtain ⟨sch, urun, w, hsch, hw, hurun, hr, hu, hune⟩ := matchUrl_decomp h
            obtain ⟨hsp1a, hsp1b, hsp1ne⟩ := takeWhile1_eq_some h2
            obtain ⟨hsp2a, hsp2b, hsp2ne⟩ := takeWhile1_eq_some h4
            have ht3 : t3 = lisLit ++ t4 := dropLit_eq_some_iff.mp h3
            refine ⟨sp1, sp2, sch, urun, ?_, hu, hsp1ne, ?_, hsp2ne, ?_, hsch, hune, ?_⟩
            · have ht2 : t2 = sp1 ++ t3 := by
                rw [hsp1a, hsp1b]
                exact (List.takeWhile_append_dropWhile isSpaceC t2).symm
              have ht4 : t4 = sp2 ++ t5 := by
                rw [hsp2a, hsp2b]
                exact (List.takeWhile_append_dropWhile isSpaceC t4).symm
              have ht5 : t5 = sch ++ (urun ++ r) := by
                rw [hw]
                congr 1
                rw [hurun, hr]
                exact (List.takeWhile_append_dropWhile _ w).symm
              rw [ht2, ht3, ht4, ht5]
            · intro c hc
              rw [hsp1a] at hc
              exact List.mem_takeWhile_imp hc
            · intro c hc
              rw [hsp2a] at hc
              exact List.mem_takeWhile_imp hc
            · intro c hc
              rw [hurun] at hc
              have := List.mem_takeWhile_imp hc
              simpa using this
          | none => simp only [h4] at h; exact absurd h (by simp)
        | none => simp only [h3] at h; exact absurd h (by simp)
      | none => simp only [h2] at h; exact absurd h (by simp)
    case isFalse => exact absurd h (by simp)

theorem matchResAt_decomp {cs n u r : List Char} (h : matchResAt cs = some (n, u, r)) :
    ∃ c0 run sp1 sp2 sch urun,
      cs = '"' :: c0 :: (run ++ '"' :: (sp1 ++ (lisLit ++ (sp2 ++ (sch ++ (urun ++ r)))))) ∧
      n = c0 :: run ∧ u = sch ++ urun ∧
      isWordC c0 = true ∧ run ≠ [] ∧ (∀ c ∈ run, isWordLikeC c = true) ∧
      sp1 ≠ [] ∧ (∀ c ∈ sp1, isSpaceC c = true) ∧
      sp2 ≠ [] ∧ (∀ c ∈ sp2, isSpaceC c = true) ∧
      (sch = httpsLit ∨ sch = httpLit) ∧
      urun ≠ [] ∧ (∀ c ∈ urun, isSpaceC c = false) := by
  cases cs with
  | nil => exact absurd h (by simp [matchResAt])
  | cons c t =>
    cases t with
    | nil => exact absurd h (by simp [matchResAt])
    | cons c0 t1 =>
      simp only [matchResAt] at h
      split at h
      case isTrue hcw =>
        simp only [Bool.and_eq_true, beq_iff_eq] at hcw
        obtain ⟨rfl, hc0⟩ := hcw
        cases h1 : takeWhile1 isWordLikeC t1 with
        | some p =>
          obtain ⟨run, rest1⟩ := p
          simp only [h1] at h
          cases h2 : matchResTail rest1 with
          | some p2 =>
            obtain ⟨u2, r2⟩ := p2
            simp only [h2, Option.some.injEq, Prod.mk.injEq] at h
            obtain ⟨rfl, rfl, rfl⟩ := h
            obtain ⟨hruna, hrunb, hrunne⟩ := takeWhile1_eq_some h1
            obtain ⟨sp1, sp2, sch, urun, hrest1, hu, hsp1ne, hsp1s, hsp2ne, hsp2s,
              hsch, hune, huns⟩ := matchResTail_decomp h2
            refine ⟨c0, run, sp1, sp2, sch, urun, ?_, rfl, hu, hc0, hrunne, ?_,
              hsp1ne, hsp1s, hsp2ne, hsp2s, hsch, hune, huns⟩
            · have ht1 : t1 = run ++ rest1 := by
                rw [hruna, hrunb]
                exact (List.takeWhile_append_dropWhile _ t1).symm
              rw [ht1, hrest1]
            · intro c hc
              rw [hruna] at hc
              exact List.mem_takeWhile_imp hc
          | none => simp only [h2] at h; exact absurd h (by simp)
        | none => simp only [h1] at h; exact absurd h (by simp)
      case isFalse => exact absurd h (by simp)

theorem lisLit_head : lisLit = 'i' :: "s listening on".toList := rfl

/-- A complete resource announcement whose URL continues with at least one
non-space character always matches RESOURCE_URL_RE at its start. -/
theorem matchResAt_full {c0 : Char} {run sp1 sp2 sch : List Char} {d : Char}
    (w2 : List Char)
    (hc0 : isWordC c0 = true) (hrun : run ≠ []) (hrunw : ∀ c ∈ run, isWordLikeC c = true)
    (hsp1 : sp1 ≠ []) (hsp1s : ∀ c ∈ sp1, isSpaceC c = true)
    (hsp2 : sp2 ≠ []) (hsp2s : ∀ c ∈ sp2, isSpaceC c = true)
    (hsch : sch = httpsLit ∨ sch = httpLit)
    (hd : isSpaceC d = false) :
    ∃ u r, matchResAt
      ('"' :: c0 :: (run ++ '"' :: (sp1 ++ (lisLit ++ (sp2 ++ (sch ++ d :: w2)))))) =
      some (c0 :: run, u, r) := by
  have hsch_h : ∃ schT, sch = 'h' :: schT := by
    rcases hsch with rfl | rfl
    · exact ⟨_, rfl⟩
    · exact ⟨_, rfl⟩
  obtain ⟨schT, hschT⟩ := hsch_h
  have h1 : takeWhile1 isWordLikeC (run ++ '"' :: (sp1 ++ (lisLit ++ (sp2 ++ (sch ++ d :: w2))))) =
      some (run, '"' :: (sp1 ++ (lisLit ++ (sp2 ++ (sch ++ d :: w2))))) :=
    takeWhile1_exact _ hrunw (by decide) hrun
  have h2 : takeWhile1 isSpaceC (sp1 ++ (lisLit ++ (sp2 ++ (sch ++ d :: w2)))) =
      some (sp1, lisLit ++ (sp2 ++ (sch ++ d :: w2))) := by
    rw [lisLit_head, List.cons_append]
    exact takeWhile1_exact _ hsp1s (by decide) hsp1
  have h3 : dropLit lisLit (lisLit ++ (sp2 ++ (sch ++ d :: w2))) =
      some (sp2 ++ (sch ++ d :: w2)) := dropLit_eq_some_iff.mpr rfl
  have h4 : takeWhile1 isSpaceC (sp2 ++ (sch ++ d :: w2)) =
      some (sp2, sch ++ d :: w2) := by
    rw [hschT, List.cons_append]
    have := takeWhile1_exact (p := isSpaceC) (l := sp2) (d := 'h')
      (schT ++ d :: w2) hsp2s (by decide) hsp2
    simpa using this
  obtain ⟨u, r, h5⟩ := matchUrl_starts w2 hsch hd
  refine ⟨u, r, ?_⟩
  simp only [matchResAt, matchResTail, h1, h2, h3, h4, h5]
  rw [if_pos (by simp [hc0]), if_pos (by simp)]

/-! ## Discovery: a partial match at the head hides no other match -/

theorem matchResAt_one : ∀ (c : Char), matchResAt [c] = none := fun _ => rfl

theorem matchResAt_cons_notquote {c c0 : Char} (t1 : List Char)
    (hc : (c == '"') = false) : matchResAt (c :: c0 :: t1) = none := by
  simp [matchResAt, hc]

theorem matchResAt_cons_notword {c0 : Char} (t1 : List Char)
    (hc0 : isWordC c0 = false) : matchResAt ('"' :: c0 :: t1) = none := by
  simp [matchResAt, hc0]

theorem findRes_nil_noquote (y : List Char) (hy : ∀ c ∈ y, (c == '"') = false) :
    ∀ x, x <+: y → findRes x = [] := by
  induction y with
  | nil =>
    intro x hx
    obtain ⟨q, hq⟩ := hx
    obtain rfl : x = [] := (List.append_eq_nil.mp hq).1
    exact findRes_nil
  | cons d yt ih =>
    intro x hx
    rcases pfxL_cons_cases hx with rfl | ⟨t, rfl, ht⟩
    · exact findRes_nil
    · have h0 : matchResAt (d :: t) = none := by
        cases t with
        | nil => exact matchResAt_one d
        | cons c0 t2 => exact matchResAt_cons_notquote t2 (hy d (by simp))
      rw [findRes_cons]
      simp only [h0]
      exact ih (fun c hc => hy c (List.mem_cons_of_mem d hc)) t ht

theorem findRes_nil_pfx_name (nm : List Char) {sp1 rest3 : List Char}
    (hnm : ∀ c ∈ nm, isWordLikeC c = true)
    (hsp1 : sp1 ≠ []) (hsp1s : ∀ c ∈ sp1, isSpaceC c = true)
    (hr3 : ∀ c ∈ rest3, (c == '"') = false) :
    ∀ x, x <+: nm ++ '"' :: (sp1 ++ rest3) → findRes x = [] := by
  induction nm with
  | nil =>
    intro x hx
    rcases pfxL_cons_cases (by simpa using hx) with rfl | ⟨t, rfl, ht⟩
    · exact findRes_nil
    · cases sp1 with
      | nil => exact absurd rfl hsp1
      | cons s0 sp1t =>
        have h0 : matchResAt ('"' :: t) = none := by
          cases t with
          | nil => exact matchResAt_one '"'
          | cons d t2 =>
            obtain ⟨q, hq⟩ := ht
            have hd : d = s0 := by
              rw [List.cons_append, List.cons_append] at hq
              exact (List.cons.inj hq).1
            subst hd
            exact matchResAt_cons_notword t2 (space_not_word (hsp1s d (by simp)))
        rw [findRes_cons]
        simp only [h0]
        have hq : ∀ c ∈ (s0 :: sp1t) ++ rest3, (c == '"') = false := by
          intro c hc
          rcases List.mem_append.mp hc with hc1 | hc2
          · exact space_ne_quote (hsp1s c hc1)
          · exact hr3 c hc2
        exact findRes_nil_noquote _ hq t ht
  | cons m0 nmt ih =>
    intro x hx
    rcases pfxL_cons_cases (by simpa using hx) with rfl | ⟨t, rfl, ht⟩
    · exact findRes_nil
    · have h0 : matchResAt (m0 :: t) = none := by
        cases t with
        | nil => exact matchResAt_one m0
        | cons c0 t2 =>
          exact matchResAt_cons_notquote t2 (wordlike_ne_quote (hnm m0 (by simp)))
      rw [findRes_cons]
      simp only [h0]
      exact ih (fun c hc => hnm c (List.mem_cons_of_mem m0 hc)) t ht

theorem lisLit_noquote : ∀ c ∈ lisLit, (c == '"') = false := by decide

theorem httpsLit_noquote : ∀ c ∈ httpsLit, (c == '"') = false := by decide

theorem httpLit_noquote : ∀ c ∈ httpLit, (c == '"') = false := by decide

/-- If the scan finds no match at the start of `cs` but does find one once
`e` is appended, then the whole of `cs` is an unfinished prefix of that
match, and no position inside `cs` carries a complete match. -/
theorem findRes_nil_of_partial {cs e n u r : List Char}
    (h0 : matchResAt cs = none) (h1 : matchResAt (cs ++ e) = some (n, u, r)) :
    findRes cs = [] := by
  obtain ⟨c0, run, sp1, sp2, sch, urun, hcse, hn, hu, hc0, hrunne, hrunw,
    hsp1ne, hsp1s, hsp2ne, hsp2s, hsch, hurunne, huruns⟩ := matchResAt_decomp h1
  have hassoc : ('"' :: c0 :: (run ++ '"' :: (sp1 ++ (lisLit ++ (sp2 ++ (sch ++ (urun ++ r))))))) =
      ('"' :: c0 :: (run ++ '"' :: (sp1 ++ (lisLit ++ (sp2 ++ sch))))) ++ (urun ++ r) := by
    simp [List.append_assoc]
  have hpr : cs <+: ('"' :: c0 :: (run ++ '"' :: (sp1 ++ (lisLit ++ (sp2 ++ sch))))) ++
      (urun ++ r) := by
    rw [← hassoc, ← hcse]
    exact ⟨e, rfl⟩
  rcases pfxL_append_cases hpr with hcsH | ⟨w, hw, hwpr⟩
  · -- cs is a prefix of the header: walk it down with the suffix lemmas
    rcases pfxL_cons_cases hcsH with rfl | ⟨t, rfl, htp⟩
    · exact findRes_nil
    · rw [findRes_cons]
      simp only [h0]
      have htp2 : t <+: (c0 :: run) ++ '"' :: (sp1 ++ (lisLit ++ (sp2 ++ sch))) := by
        simpa using htp
      have hnm : ∀ c ∈ c0 :: run, isWordLikeC c = true := by
        intro c hc
        rcases List.mem_cons.mp hc with rfl | hc2
        · exact word_isWordLike hc0
        · exact hrunw c hc2
      have hr3 : ∀ c ∈ lisLit ++ (sp2 ++ sch), (c == '"') = false := by
        intro c hc
        rcases List.mem_append.mp hc with hc1 | hc2
        · exact lisLit_noquote c hc1
        · rcases List.mem_append.mp hc2 with hc3 | hc4
          · exact space_ne_quote (hsp2s c hc3)
          · rcases hsch with rfl | rfl
            · exact httpsLit_noquote c hc4
            · exact httpLit_noquote c hc4
      exact findRes_nil_pfx_name (c0 :: run) hnm hsp1ne hsp1s hr3 t htp2
  · -- cs extends past the header: it would match, contradiction
    cases w with
    | nil =>
      rw [List.append_nil] at hw
      subst hw
      rw [findRes_cons]
      simp only [h0]
      have htp2 : (c0 :: (run ++ '"' :: (sp1 ++ (lisLit ++ (sp2 ++ sch))))) <+:
          (c0 :: run) ++ '"' :: (sp1 ++ (lisLit ++ (sp2 ++ sch))) := by
        simp
      have hnm : ∀ c ∈ c0 :: run, isWordLikeC c = true := by
        intro c hc
        rcases List.mem_cons.mp hc with rfl | hc2
        · exact word_isWordLike hc0
        · exact hrunw c hc2
      have hr3 : ∀ c ∈ lisLit ++ (sp2 ++ sch), (c == '"') = false := by
        intro c hc
        rcases List.mem_append.mp hc with hc1 | hc2
        · exact lisLit_noquote c hc1
        · rcases List.mem_append.mp hc2 with hc3 | hc4
          · exact space_ne_quote (hsp2s c hc3)
          · rcases hsch with rfl | rfl
            · exact httpsLit_noquote c hc4
            · exact httpLit_noquote c hc4
      exact findRes_nil_pfx_name (c0 :: run) hnm hsp1ne hsp1s hr3 _ htp2
    | cons d w2 =>
      exfalso
      cases urun with
      | nil => exact hurunne rfl
      | cons e0 urunT =>
        obtain ⟨q, hq⟩ := hwpr
        have hd : d = e0 := by
          rw [List.cons_append, List.cons_append] at hq
          exact (List.cons.inj hq).1
        subst hd
        have hdns : isSpaceC d = false := huruns d (by simp)
        have hw2 : cs = '"' :: c0 :: (run ++ '"' :: (sp1 ++ (lisLit ++ (sp2 ++
            (sch ++ d :: w2))))) := by
          rw [hw]
          simp [List.append_assoc]
        obtain ⟨u2, r2, hfull⟩ := matchResAt_full w2 hc0 hrunne hrunw hsp1ne hsp1s
          hsp2ne hsp2s hsch hdns
        rw [← hw2] at hfull
        rw [h0] at hfull
        cases hfull

/-! ## Discovery: monotonicity of the match scans under appending -/

theorem findRes_names_mono_aux : ∀ (N : Nat) (cs : List Char), cs.length ≤ N →
    ∀ (e k : List Char), k ∈ (findRes cs).map Prod.fst →
      k ∈ (findRes (cs ++ e)).map Prod.fst := by
  intro N
  induction N with
  | zero =>
    intro cs hlen e k hk
    obtain rfl : cs = [] := List.length_eq_zero.mp (Nat.le_zero.mp hlen)
    rw [findRes_nil] at hk
    cases hk
  | succ N ih =>
    intro cs hlen e k hk
    cases cs with
    | nil =>
      rw [findRes_nil] at hk
      cases hk
    | cons c t =>
      simp only [List.length_cons] at hlen
      cases hm : matchResAt (c :: t) with
      | some p =>
        obtain ⟨n, u, rest⟩ := p
        rw [findRes_cons] at hk
        simp only [hm, List.map_cons, List.mem_cons] at hk
        have hrl : rest.length < t.length + 1 := by
          have := matchResAt_rest_length hm
          simpa using this
        cases hrest : rest with
        | nil =>
          subst hrest
          have hk2 : k = n := by
            rcases hk with rfl | hk2
            · rfl
            · rw [findRes_nil] at hk2; cases hk2
          obtain ⟨u2, r2, hm2⟩ := matchResAt_append_nil e hm
          rw [List.cons_append] at hm2
          rw [List.cons_append, findRes_cons]
          simp [hm2, hk2]
        | cons d ds =>
          subst hrest
          have hm2 := matchResAt_append_ne e hm (by simp)
          rw [List.cons_append] at hm2
          rw [List.cons_append, findRes_cons]
          simp only [hm2, List.map_cons, List.mem_cons]
          rcases hk with rfl | hk2
          · exact Or.inl rfl
          · exact Or.inr (ih (d :: ds) (by omega) e k hk2)
      | none =>
        rw [findRes_cons] at hk
        simp only [hm] at hk
        cases hm2 : matchResAt (c :: (t ++ e)) with
        | none =>
          rw [List.cons_append, findRes_cons]
          simp only [hm2]
          exact ih t (by omega) e k hk
        | some p =>
          exfalso
          have hnil : findRes (c :: t) = [] :=
            findRes_nil_of_partial (e := e) hm (by rw [List.cons_append]; exact hm2)
          rw [findRes_cons] at hnil
          simp only [hm] at hnil
          rw [hnil] at hk
          cases hk

theorem findRes_names_mono (cs e k : List Char)
    (hk : k ∈ (findRes cs).map Prod.fst) :
    k ∈ (findRes (cs ++ e)).map Prod.fst :=
  findRes_names_mono_aux cs.length cs (Nat.le_refl _) e k hk

theorem findNow_append {cs : List Char} (e : List Char)
    (h : (findNow cs).isSome = true) : (findNow (cs ++ e)).isSome = true :=
  scanFirst_append e (fun _ hx => matchLitUrlAt_append e hx) h

theorem findLogin_append {cs : List Char} (e : List Char)
    (h : (findLogin cs).isSome = true) : (findLogin (cs ++ e)).isSome = true :=
  scanFirst_append e (fun _ hx => matchLitUrlAt_append e hx) h

theorem parse_dashboard_mono (cs e : List Char)
    (h : (parse_log_content cs).dashboard_url.isSome = true) :
    (parse_log_content (cs ++ e)).dashboard_url.isSome = true := by
  unfold parse_log_content at h ⊢
  simp only at h ⊢
  cases hl : findLogin cs with
  | some v =>
    have h2 : (findLogin (cs ++ e)).isSome = true := findLogin_append e (by rw [hl]; rfl)
    cases hl2 : findLogin (cs ++ e) with
    | some w => rfl
    | none => rw [hl2] at h2; cases h2
  | none =>
    rw [hl] at h
    have h2 : (findNow (cs ++ e)).isSome = true := findNow_append e h
    cases hl2 : findLogin (cs ++ e) with
    | some w => rfl
    | none =>
      cases hn2 : findNow (cs ++ e) with
      | some w => rfl
      | none => rw [hn2] at h2; cases h2

/-! ## Discovery: the folded service-URL map -/

/-- The value of the last entry for `k` in an association list (later
entries win), matching the fold of `insertSU` over the match list. -/
def lastAssoc : List (List Char × List Char) → List Char → Option (List Char)
  | [], _ => none
  | p :: t, k =>
    match lastAssoc t k with
    | some v => some v
    | none => if p.1 == k then some p.2 else none

theorem lookupSU_append_right {m1 m2 : List (List Char × List Char)} {k : List Char}
    (h : lookupSU m1 k = none) : lookupSU (m1 ++ m2) k = lookupSU m2 k := by
  induction m1 with
  | nil => rfl
  | cons a t ih =>
    obtain ⟨a1, a2⟩ := a
    simp only [lookupSU, List.cons_append] at h ⊢
    split at h
    · cases h
    · rename_i hne
      rw [if_neg hne]
      exact ih h

theorem lookupSU_append_left {m1 m2 : List (List Char × List Char)} {k v : List Char}
    (h : lookupSU m1 k = some v) : lookupSU (m1 ++ m2) k = some v := by
  induction m1 with
  | nil => cases h
  | cons a t ih =>
    obtain ⟨a1, a2⟩ := a
    simp only [lookupSU, List.cons_append] at h ⊢
    split at h
    · rename_i hp
      rw [if_pos hp]
      exact h
    · rename_i hp
      rw [if_neg hp]
      exact ih h

theorem lookupSU_none_of_all {m : List (List Char × List Char)} {a : List Char}
    (h : ∀ p ∈ m, (p.1 == a) = false) : lookupSU m a = none := by
  induction m with
  | nil => rfl
  | cons q t ih =>
    obtain ⟨q1, q2⟩ := q
    simp only [lookupSU]
    rw [if_neg ?_]
    · exact ih fun p hp => h p (List.mem_cons_of_mem _ hp)
    · intro hc
      have := h (q1, q2) (List.mem_cons_self _ _)
      rw [hc] at this
      cases this

theorem lookupSU_cons (a1 a2 : List Char) (t : List (List Char × List Char))
    (k : List Char) :
    lookupSU ((a1, a2) :: t) k = if (a1 == k) = true then some a2 else lookupSU t k := rfl

theorem lookupSU_map_replace {a b : List Char} : ∀ (m : List (List Char × List Char))
    (k : List Char),
    lookupSU (m.map fun p => if p.1 == a then (a, b) else p) k =
      if (a == k) = true ∧ (lookupSU m a).isSome = true then some b else lookupSU m k := by
  intro m
  induction m with
  | nil => intro k; simp [lookupSU]
  | cons q t ih =>
    intro k
    obtain ⟨q1, q2⟩ := q
    simp only [List.map_cons]
    by_cases hqa : (q1 == a) = true
    · have hq1 : q1 = a := by simpa using hqa
      rw [if_pos hqa]
      simp only [lookupSU_cons]
      by_cases hak : (a == k) = true
      · have hQ1k : (q1 == k) = true := by rw [hq1]; exact hak
        have hcond : (a == k) = true ∧
            (if (q1 == a) = true then some q2 else lookupSU t a).isSome = true :=
          ⟨hak, by rw [if_pos hqa]; rfl⟩
        rw [if_pos hak, if_pos hcond]
      · have hQ1k : (q1 == k) = false := by
          cases hx : (q1 == k) with
          | false => rfl
          | true => exact absurd (by rw [← hq1]; exact hx) (fun hh => hak hh)
        rw [if_neg hak, ih k, if_neg (fun hc => hak hc.1),
          if_neg (fun hc => hak hc.1), if_neg (by rw [hQ1k]; simp)]
    · rw [if_neg hqa]
      simp only [lookupSU_cons]
      have hRa : (if (q1 == a) = true then some q2 else lookupSU t a) = lookupSU t a := by
        rw [if_neg hqa]
      rw [hRa]
      by_cases hqk : (q1 == k) = true
      · have hne : ¬((a == k) = true ∧ (lookupSU t a).isSome = true) := by
          intro hc
          have h1 : a = k := by simpa using hc.1
          have h2 : q1 = k := by simpa using hqk
          refine hqa ?_
          rw [h2, h1]
          simp
        rw [if_pos hqk, if_neg hne, if_pos hqk]
      · rw [if_neg hqk, if_neg hqk, ih k]

theorem lookupSU_isSome_of_mem {m : List (List Char × List Char)}
    {p : List Char × List Char} {a : List Char} (hp : p ∈ m)
    (ha : (p.1 == a) = true) : (lookupSU m a).isSome = true := by
  induction m with
  | nil => cases hp
  | cons q t ih =>
    obtain ⟨q1, q2⟩ := q
    rw [lookupSU_cons]
    rcases List.mem_cons.mp hp with heq | hmem
    · rw [if_pos ?_]
      · rfl
      · rw [heq] at ha
        exact ha
    · cases hx : (q1 == a) with
      | true => simp
      | false => simpa using ih hmem

theorem lookupSU_insertSU {m : List (List Char × List Char)} {a b k : List Char} :
    lookupSU (insertSU m a b) k = if (a == k) = true then some b else lookupSU m k := by
  unfold insertSU
  by_cases hany : (m.any fun p => p.1 == a) = true
  · rw [if_pos hany, lookupSU_map_replace]
    obtain ⟨p, hp, hpa⟩ := List.any_eq_true.mp hany
    have hsome : (lookupSU m a).isSome = true := lookupSU_isSome_of_mem hp hpa
    by_cases hak : (a == k) = true
    · rw [if_pos ⟨hak, hsome⟩, if_pos hak]
    · rw [if_neg (fun hc => hak hc.1), if_neg hak]
  · rw [if_neg hany]
    have hall : ∀ p ∈ m, (p.1 == a) = false := by
      intro p hp
      cases hx : (p.1 == a) with
      | false => rfl
      | true => exact absurd (List.any_eq_true.mpr ⟨p, hp, hx⟩) hany
    by_cases hak : (a == k) = true
    · obtain rfl : a = k := by simpa using hak
      have hmnone : lookupSU m a = none := lookupSU_none_of_all hall
      rw [lookupSU_append_right hmnone]
      simp [lookupSU, hmnone]
    · rw [if_neg hak]
      cases hmk : lookupSU m k with
      | some v => exact lookupSU_append_left hmk
      | none =>
        rw [lookupSU_append_right hmk]
        simp [lookupSU, hak]

theorem lookupSU_foldl (L : List (List Char × List Char)) :
    ∀ (m : List (List Char × List Char)) (k : List Char),
      lookupSU (L.foldl (fun m p => insertSU m p.1 p.2) m) k =
        match lastAssoc L k with
        | some v => some v
        | none => lookupSU m k := by
  induction L with
  | nil => intro m k; rfl
  | cons p t ih =>
    intro m k
    show lookupSU (t.foldl (fun m p => insertSU m p.1 p.2) (insertSU m p.1 p.2)) k =
      match lastAssoc (p :: t) k with
      | some v => some v
      | none => lookupSU m k
    rw [ih]
    simp only [lastAssoc]
    cases hlast : lastAssoc t k with
    | some v => rfl
    | none =>
      show lookupSU (insertSU m p.1 p.2) k =
        match (if (p.1 == k) = true then some p.2 else none) with
        | some v => some v
        | none => lookupSU m k
      rw [lookupSU_insertSU]
      by_cases hpk : (p.1 == k) = true
      · rw [if_pos hpk, if_pos hpk]
      · rw [if_neg hpk, if_neg hpk]

theorem parse_service_lookup (cs k : List Char) :
    lookupSU (parse_log_content cs).service_urls k = lastAssoc (findRes cs) k := by
  unfold parse_log_content
  simp only
  rw [lookupSU_foldl]
  cases lastAssoc (findRes cs) k with
  | some v => rfl
  | none => rfl

theorem lastAssoc_isSome_iff {L : List (List Char × List Char)} {k : List Char} :
    (lastAssoc L k).isSome = true ↔ k ∈ L.map Prod.fst := by
  induction L with
  | nil => simp [lastAssoc]
  | cons p t ih =>
    simp only [lastAssoc, List.map_cons, List.mem_cons]
    cases hlast : lastAssoc t k with
    | some v =>
      rw [hlast] at ih
      simp only [Option.isSome_some, true_iff] at ih
      show (some v).isSome = true ↔ k = p.1 ∨ k ∈ List.map Prod.fst t
      simp only [Option.isSome_some, true_iff]
      exact Or.inr ih
    | none =>
      rw [hlast] at ih
      simp only [Option.isSome_none, Bool.false_eq_true, false_iff] at ih
      show (if (p.1 == k) = true then some p.2 else none).isSome = true ↔
        k = p.1 ∨ k ∈ List.map Prod.fst t
      by_cases hpk : (p.1 == k) = true
      · have h1 : p.1 = k := by simpa using hpk
        rw [if_pos hpk]
        simp only [Option.isSome_some, true_iff]
        exact Or.inl h1.symm
      · rw [if_neg hpk]
        simp only [Option.isSome_none, Bool.false_eq_true, false_iff]
        intro hc
        rcases hc with hc1 | hc2
        · exact hpk (by simpa using hc1.symm)
        · exact ih hc2

theorem lastAssoc_mem {L : List (List Char × List Char)} {k v : List Char}
    (h : lastAssoc L k = some v) : (k, v) ∈ L := by
  induction L with
  | nil => cases h
  | cons p t ih =>
    simp only [lastAssoc] at h
    cases hlast : lastAssoc t k with
    | some w =>
      simp only [hlast] at h
      exact List.mem_cons_of_mem p (ih (hlast.trans h))
    | none =>
      simp only [hlast] at h
      by_cases hpk : (p.1 == k) = true
      · rw [if_pos hpk] at h
        have h1 : p.1 = k := by simpa using hpk
        have h2 : p.2 = v := Option.some.inj h
        have hpv : p = (k, v) := Prod.ext h1 h2
        rw [hpv]
        exact List.mem_cons_self _ _
      · rw [if_neg hpk] at h
        cases h

theorem matchResAt_name_shape {cs n u r : List Char}
    (h : matchResAt cs = some (n, u, r)) :
    ∃ c0 t2, n = c0 :: t2 ∧ isWordC c0 = true ∧ t2 ≠ [] := by
  obtain ⟨c0, run, _, _, _, _, _, hn, _, hc0, hrunne, _⟩ := matchResAt_decomp h
  exact ⟨c0, run, hn, hc0, hrunne⟩

theorem findRes_mem_shape_aux : ∀ (N : Nat) (cs : List Char), cs.length ≤ N →
    ∀ p ∈ findRes cs, ∃ c0 t2, p.1 = c0 :: t2 ∧ isWordC c0 = true ∧ t2 ≠ [] := by
  intro N
  induction N with
  | zero =>
    intro cs hlen p hp
    obtain rfl : cs = [] := List.length_eq_zero.mp (Nat.le_zero.mp hlen)
    rw [findRes_nil] at hp
    cases hp
  | succ N ih =>
    intro cs hlen p hp
    cases cs with
    | nil => rw [findRes_nil] at hp; cases hp
    | cons c t =>
      simp only [List.length_cons] at hlen
      rw [findRes_cons] at hp
      cases hm : matchResAt (c :: t) with
      | some q =>
        obtain ⟨n, u, rest⟩ := q
        rw [hm] at hp
        have hrl : rest.length < t.length + 1 := by
          have := matchResAt_rest_length hm
          simpa using this
        rcases List.mem_cons.mp hp with rfl | hp2
        · obtain ⟨c0, t2, hshape, hw, hne⟩ := matchResAt_name_shape hm
          exact ⟨c0, t2, hshape, hw, hne⟩
        · exact ih rest (by omega) p hp2
      | none =>
        rw [hm] at hp
        exact ih t (by omega) p hp

theorem findRes_mem_shape {cs : List Char} {p : List Char × List Char}
    (hp : p ∈ findRes cs) :
    ∃ c0 t2, p.1 = c0 :: t2 ∧ isWordC c0 = true ∧ t2 ≠ [] :=
  findRes_mem_shape_aux cs.length cs (Nat.le_refl _) p hp

/-! ## Discovery monotonicity (claim C1) -/

/-- Claim C1 counterexample: appending `logExt1` to `logS1` changes the URL
recorded for the already-present key `api` (the service is re-announced
with a different URL), and changes the dashboard URL from `http://a` to
`http://ab` (the greedy `\S+` extends across the split point) although the
larger input contains no `Login to the dashboard at` match — so neither the
"equal URL" part nor the "upgrade-only" part of the claim holds. -/
theorem discovery_not_monotone_on_prefixes :
    lookupSU (parse_log_content logS1).service_urls "api".toList =
      some "http://c".toList ∧
    lookupSU (parse_log_content (logS1 ++ logExt1)).service_urls "api".toList =
      some "http://d".toList ∧
    ("http://c".toList ≠ ("http://d".toList : List Char)) ∧
    (parse_log_content logS1).dashboard_url = some "http://a".toList ∧
    (parse_log_content (logS1 ++ logExt1)).dashboard_url = some "http://ab".toList ∧
    findLogin (logS1 ++ logExt1) = none ∧
    (some "http://a".toList ≠ (some "http://ab".toList : Option (List Char))) := by
  refine ⟨by decide, by decide, by decide, by decide, by decide, by decide, by decide⟩

/-- Claim C1 (amended): discovery is monotone on input prefixes in the
weaker sense that holds of the code — every service-URL key present in
`parse_log_content S` is still present in `parse_log_content (S ++ extra)`
(its URL may change when the service is re-announced or when the final URL
is extended at the split point), and if `parse_log_content S` has a
dashboard URL then `parse_log_content (S ++ extra)` has one too (its value
may likewise change). -/
theorem discovery_monotone_amended (cs e : List Char) :
    ((parse_log_content cs).dashboard_url.isSome = true →
      (parse_log_content (cs ++ e)).dashboard_url.isSome = true) ∧
    (∀ k, (lookupSU (parse_log_content cs).service_urls k).isSome = true →
      (lookupSU (parse_log_content (cs ++ e)).service_urls k).isSome = true) := by
  constructor
  · exact parse_dashboard_mono cs e
  · intro k hk
    rw [parse_service_lookup] at hk ⊢
    rw [lastAssoc_isSome_iff] at hk ⊢
    exact findRes_names_mono cs e k hk

theorem discovery_monotone_amended_witness :
    ((parse_log_content logS1).dashboard_url.isSome = true ∧
      (parse_log_content (logS1 ++ logExt1)).dashboard_url.isSome = true) ∧
    ((lookupSU (parse_log_content logS1).service_urls "api".toList).isSome = true ∧
      (lookupSU (parse_log_content (logS1 ++ logExt1)).service_urls
        "api".toList).isSome = true) :=
  ⟨⟨by decide, (discovery_monotone_amended logS1 logExt1).1 (by decide)⟩,
   ⟨by decide, (discovery_monotone_amended logS1 logExt1).2 "api".toList (by decide)⟩⟩

/-! ## Resource-name pattern (claim C8) -/

/-- Claim C8 counterexample: the input announces a service named `1api`.
The source regex captures it (its first name character class is `\w`), so
the map has an entry whose key starts with the digit `1`, which is not an
ASCII letter; the spec's stated `[A-Za-z]`-pattern has no match at all on
this input. -/
theorem resource_regex_accepts_digit_names :
    lookupSU (parse_log_content logDigitName).service_urls "1api".toList =
      some "http://x".toList ∧
    findResSpec logDigitName = [] ∧
    isAlphaC '1' = false := by
  refine ⟨by decide, by decide, by decide⟩

/-- Claim C8 (amended): the service-URL map contains exactly one entry per
distinct name captured by the source pattern
`"(\w[\w.\-]+)"\s+is listening on\s+(https?://\S+)` — the stored URL being
the URL of one of that name's matches (the last one, since later inserts
overwrite) — and every extracted service name begins with a word character
(letter, digit, or underscore) and has length at least two. -/
theorem resource_map_characterization (cs k : List Char) :
    ((lookupSU (parse_log_content cs).service_urls k).isSome = true ↔
      k ∈ (findRes cs).map Prod.fst) ∧
    (∀ v, lookupSU (parse_log_content cs).service_urls k = some v →
      (k, v) ∈ findRes cs) ∧
    ((lookupSU (parse_log_content cs).service_urls k).isSome = true →
      ∃ c0 t2, k = c0 :: t2 ∧ isWordC c0 = true ∧ t2 ≠ []) := by
  refine ⟨?_, ?_, ?_⟩
  · rw [parse_service_lookup]
    exact lastAssoc_isSome_iff
  · intro v hv
    rw [parse_service_lookup] at hv
    exact lastAssoc_mem hv
  · intro hk
    rw [parse_service_lookup, lastAssoc_isSome_iff] at hk
    rw [List.mem_map] at hk
    obtain ⟨p, hp, hpk⟩ := hk
    obtain ⟨c0, t2, hshape, hw, hne⟩ := findRes_mem_shape hp
    exact ⟨c0, t2, by rw [← hpk, hshape], hw, hne⟩

theorem resource_map_characterization_witness :
    ("1api".toList ∈ (findRes logDigitName).map Prod.fst) ∧
    (("1api".toList, "http://x".toList) ∈ findRes logDigitName) ∧
    (∃ c0 t2, "1api".toList = c0 :: t2 ∧ isWordC c0 = true ∧ t2 ≠ []) :=
  ⟨(resource_map_characterization logDigitName "1api".toList).1.mp (by decide),
   (resource_map_characterization logDigitName "1api".toList).2.1
     "http://x".toList (by decide),
   (resource_map_characterization logDigitName "1api".toList).2.2 (by decide)⟩

/-! ## Duplicate slot creation (claim C5) -/

/-- Claim C5: for every registry already containing a slot named `name`,
`create_slot` returns the slot-already-exists error and leaves the registry
unchanged, with an empty effect trace — no clone, port allocation, tmux
call, registry insertion, or persist happens. -/
theorem create_slot_rejects_duplicate (env : CreateEnv) (slots : List Slot)
    (dir name source : String) (branch prompt : Option String)
    (h : slots.any (fun s => s.name == name) = true) :
    create_slot env slots dir name source branch prompt =
      (Except.error (OrchestratorError.slotAlreadyExists name), slots, []) := by
  unfold create_slot
  rw [if_pos h]

theorem create_slot_rejects_duplicate_witness :
    ([slotFeatX].any (fun s => s.name == "feat-x") = true) ∧
    create_slot envAllOk [slotFeatX] "/slots" "feat-x" "/r" none none =
      (Except.error (OrchestratorError.slotAlreadyExists "feat-x"), [slotFeatX], []) :=
  ⟨by decide, create_slot_rejects_duplicate envAllOk [slotFeatX] "/slots" "feat-x" "/r"
    none none (by decide)⟩

/-! ## Destroying a missing slot (claim C9) -/

/-- Claim C9: `destroy_slot` on a name that is not in the slot registry (and
so also has no live child-process handle or tailer) returns `Ok` rather
than a slot-not-found error; every teardown sub-step is skipped and the
registry is unchanged — the only effect is re-persisting the registry
as-is. -/
theorem destroy_slot_missing_name_is_ok (env : DestroyEnv) (slots : List Slot)
    (procs tailers : List String) (name : String)
    (h1 : slots.all (fun s => !(s.name == name)) = true)
    (h2 : procs.contains name = false)
    (h3 : tailers.contains name = false)
    (h4 : env.persist_result = Except.ok ()) :
    destroy_slot env slots procs tailers name =
      (Except.ok (), (slots, procs, tailers), [DestroyEff.persistState]) := by
  have hfind : slots.find? (fun s => s.name == name) = none := by
    rw [List.find?_eq_none]
    intro x hx
    have := List.all_eq_true.mp h1 x hx
    simp only [Bool.not_eq_true'] at this
    simp [this]
  have hfilter : slots.filter (fun s => !(s.name == name)) = slots :=
    List.filter_eq_self.mpr fun a ha => List.all_eq_true.mp h1 a ha
  simp only [destroy_slot, h2, h3, hfind, hfilter, h4, if_false, Bool.false_eq_true,
    List.nil_append, List.append_nil]

theorem destroy_slot_missing_name_witness :
    ([slotFeatX].all (fun s => !(s.name == "nope")) = true) ∧
    destroy_slot envDestroyOk [slotFeatX] ["other"] [] "nope" =
      (Except.ok (), ([slotFeatX], ["other"], []), [DestroyEff.persistState]) :=
  ⟨by decide, destroy_slot_missing_name_is_ok envDestroyOk [slotFeatX] ["other"] [] "nope"
    (by decide) (by decide) (by decide) rfl⟩

/-! ## Stopping a stack when the kill fails (claim C4) -/

/-- Claim C4 counterexample: when `child.kill()` fails, `stop_aspire`
surfaces the error but the slot's recorded status is `Stopping`, not
`Ready` — the `?` on `aspire::stop` skips the reset to `Ready`. -/
theorem stop_aspire_kill_failure_leaves_stopping :
    (stop_aspire envKillFail [slotRunning] ["s"] "s").1 =
      Except.error (OrchestratorError.aspire "failed to kill aspire process: boom") ∧
    (stop_aspire envKillFail [slotRunning] ["s"] "s").2.1 =
      [{ slotRunning with status := SlotStatus.stopping }] ∧
    SlotStatus.stopping ≠ SlotStatus.ready := by
  refine ⟨rfl, rfl, by decide⟩

/-- Claim C4 (amended): when stopping a slot's service stack, if killing the
child process fails the operation surfaces the error, and the slot's
recorded status is left at `Stopping` (set at the start of the operation);
the reset to `Ready` is skipped. -/
theorem stop_aspire_kill_failure_surfaces_error (env : StopEnv) (slots : List Slot)
    (procs : List String) (name msg : String)
    (h1 : env.persist1 = Except.ok ())
    (h2 : env.kill_result = Except.error msg)
    (h3 : procs.contains name = true) :
    (stop_aspire env slots procs name).1 =
      Except.error (OrchestratorError.aspire ("failed to kill aspire process: " ++ msg)) ∧
    (stop_aspire env slots procs name).2.1 =
      update_slot slots name (fun s => { s with status := SlotStatus.stopping }) := by
  have h3m : name ∈ procs := by
    have := h3
    simpa using this
  refine ⟨?_, ?_⟩ <;> simp [stop_aspire, h1, h2, h3m]

theorem stop_aspire_kill_failure_witness :
    (envKillFail.persist1 = Except.ok ()) ∧
    (envKillFail.kill_result = Except.error "boom") ∧
    ((["s"] : List String).contains "s" = true) ∧
    ((stop_aspire envKillFail [slotRunning] ["s"] "s").1 =
      Except.error (OrchestratorError.aspire ("failed to kill aspire process: " ++ "boom")) ∧
    (stop_aspire envKillFail [slotRunning] ["s"] "s").2.1 =
      update_slot [slotRunning] "s" (fun s => { s with status := SlotStatus.stopping })) :=
  ⟨rfl, rfl, by decide,
    stop_aspire_kill_failure_surfaces_error envKillFail [slotRunning] ["s"] "s" "boom"
      rfl rfl (by decide)⟩

/-! ## Log-buffer color invariants (claim C10) -/

/-- The invariant maintained by `LogBuffer::push`: every recorded color is
the memoised color of its slot name, and every memoised color is below 8. -/
def LogBufferInv (b : LogBuffer) : Prop :=
  (∀ p ∈ b.slot_colors, p.2 < 8) ∧
  (∀ e ∈ b.entries, lookupColor b.slot_colors e.slot_name = some e.color_index)

theorem lookupColor_mem {l : List (String × Nat)} {k : String} {v : Nat}
    (h : lookupColor l k = some v) : (k, v) ∈ l := by
  induction l with
  | nil => exact absurd h (by simp [lookupColor])
  | cons a t ih =>
    obtain ⟨a1, a2⟩ := a
    simp only [lookupColor] at h
    split at h
    · simp only [Option.some.injEq] at h
      subst h
      rename_i heq
      have : a1 = k := by simpa using heq
      subst this
      exact List.mem_cons_self _ _
    · exact List.mem_cons_of_mem _ (ih h)

theorem logBufferInv_push (b : LogBuffer) (n : String) (src : CoreLogSource)
    (txt : String) (hb : LogBufferInv b) : LogBufferInv (b.push n src txt) := by
  obtain ⟨hc, he⟩ := hb
  unfold LogBuffer.push LogBuffer.color_for_slot
  cases hl : lookupColor b.slot_colors n with
  | some idx =>
    refine ⟨hc, ?_⟩
    intro e hee
    simp only [List.mem_append, List.mem_singleton] at hee
    rcases hee with hin | rfl
    · have : e ∈ b.entries := by
        by_cases hcap : LogBuffer.CAPACITY ≤ b.entries.length
        · rw [if_pos hcap] at hin
          exact List.mem_of_mem_drop hin
        · rw [if_neg hcap] at hin
          exact hin
      exact he e this
    · exact hl
  | none =>
    constructor
    · intro p hp
      simp only [List.mem_cons] at hp
      rcases hp with rfl | hp
      · exact Nat.mod_lt _ (by omega)
      · exact hc p hp
    · intro e hee
      simp only [List.mem_append, List.mem_singleton] at hee
      rcases hee with hin | rfl
      · have hmem : e ∈ b.entries := by
          by_cases hcap : LogBuffer.CAPACITY ≤ b.entries.length
          · rw [if_pos hcap] at hin
            exact List.mem_of_mem_drop hin
          · rw [if_neg hcap] at hin
            exact hin
        have hee2 := he e hmem
        have hne : ¬(n == e.slot_name) = true := by
          intro hq
          have : n = e.slot_name := by simpa using hq
          rw [← this] at hee2
          rw [hl] at hee2
          cases hee2
        simp only [lookupColor]
        rw [if_neg hne]
        exact hee2
      · simp [lookupColor]

theorem logBufferInv_foldl (ops : List (String × CoreLogSource × String)) :
    ∀ (b : LogBuffer), LogBufferInv b →
      LogBufferInv (ops.foldl (fun b o => b.push o.1 o.2.1 o.2.2) b) := by
  induction ops with
  | nil => exact fun b hb => hb
  | cons o t ih =>
    intro b hb
    exact ih _ (logBufferInv_push b o.1 o.2.1 o.2.2 hb)

/-- Claim C10: after any sequence of `push` operations on the multiplexed
log buffer, every stored entry's color index is strictly below 8, and any
two entries carrying the same slot name carry the same color index (the
color assigned on first sight of a slot name never changes). -/
theorem log_buffer_color_invariant (ops : List (String × CoreLogSource × String)) :
    (∀ e ∈ (LogBuffer.pushAll ops).entries, e.color_index < 8) ∧
    (∀ e1 ∈ (LogBuffer.pushAll ops).entries, ∀ e2 ∈ (LogBuffer.pushAll ops).entries,
      e1.slot_name = e2.slot_name → e1.color_index = e2.color_index) := by
  have hinv : LogBufferInv (LogBuffer.pushAll ops) := by
    apply logBufferInv_foldl
    exact ⟨fun p hp => absurd hp (by simp [LogBuffer.empty]),
           fun e hee => absurd hee (by simp [LogBuffer.empty])⟩
  obtain ⟨hc, he⟩ := hinv
  constructor
  · intro e hee
    have h1 := he e hee
    exact hc _ (lookupColor_mem h1)
  · intro e1 h1 e2 h2 hname
    have q1 := he e1 h1
    have q2 := he e2 h2
    rw [hname] at q1
    rw [q1] at q2
    exact Option.some.inj q2

set_option maxRecDepth 10000 in
theorem log_buffer_color_invariant_witness :
    ({ slot_name := "a", source := CoreLogSource.aspireSrc, text := "error A"
       severity := Severity.sevError, color_index := 0 } : LogEntry) ∈
      (LogBuffer.pushAll opsLog).entries ∧
    ({ slot_name := "a", source := CoreLogSource.aspireSrc, text := "error A"
       severity := Severity.sevError, color_index := 0 } : LogEntry).color_index < 8 :=
  ⟨by decide,
    (log_buffer_color_invariant opsLog).1
      { slot_name := "a", source := CoreLogSource.aspireSrc, text := "error A"
        severity := Severity.sevError, color_index := 0 } (by decide)⟩

end AO
